import Mathlib

/-! whisper.axcl: the decoding orchestrator of `main.cpp`.

A shallow embedding of the host-side code of `src/main.cpp`: token suppression,
greedy arg-max selection, language lookup, the log-mel clamp / normalise / resize
pass, and the autoregressive decode loop with its attention mask.

Modelling conventions.

* `std::vector<T>` is a `List T`.  A store to `mask` whose index lies outside the
  vector is undefined behaviour in the source: `vec_store` then yields `none`, the
  pass of the loop is `LoopStep.oob` and the decode returns no state.  The theorems
  on the mel pass concern frame counts up to 3000, for which every access to the
  spectrogram is inside its row.
* `float` and `double` values are `CFloat`: NaN, the two infinities, and the finite
  values as exact rationals (rounding is not modelled, the two zeros coincide).
  The comparison `CFloat.lt` is the IEEE `<`, false whenever an operand is NaN.
* The accelerator stages are oracles: `decoder_main` yields the `4 * 51865` floats
  copied into `decoder_main_logits` or fails, and the `i`-th run of `decoder_loop`
  yields the floats copied into `logits` or fails.  A failed run is `none`
  (`return -1` in the source).  The result of the decode is `some` state only when
  the loop ends, by the break or at its bound.
* `std::log10` is a parameter of the mel pass.
-/

/-! ## Numbers -/

/-- A `float` / `double` value. -/
inductive CFloat where
  | nan : CFloat
  | ninf : CFloat
  | fin (q : ℚ) : CFloat
  | pinf : CFloat
deriving DecidableEq

namespace CFloat

/-- The IEEE comparison `a < b`. -/
def lt : CFloat → CFloat → Bool
  | ninf, fin _ => true
  | ninf, pinf => true
  | fin a, fin b => decide (a < b)
  | fin _, pinf => true
  | _, _ => false

/-- The IEEE comparison `a <= b`. -/
def le : CFloat → CFloat → Bool
  | nan, _ => false
  | _, nan => false
  | ninf, _ => true
  | fin _, ninf => false
  | fin a, fin b => decide (a ≤ b)
  | fin _, pinf => true
  | pinf, pinf => true
  | pinf, _ => false

/-- Addition of a finite constant, `x + c`. -/
def addQ : CFloat → ℚ → CFloat
  | fin q, c => fin (q + c)
  | x, _ => x

/-- Division by a positive finite constant, `x / c`. -/
def divQ : CFloat → ℚ → CFloat
  | fin q, c => fin (q / c)
  | x, _ => x

/-- The function `std::max(a, b)`: `(a < b) ? b : a`. -/
def fmax (a b : CFloat) : CFloat := if lt a b then b else a

end CFloat

/-! ## Constants of `main.cpp` -/

def WHISPER_N_MELS : Nat := 80
def WHISPER_SOT : Nat := 50258
def WHISPER_EOT : Nat := 50257
def WHISPER_BLANK : Nat := 220
def WHISPER_NO_TIMESTAMPS : Nat := 50363
def WHISPER_NO_SPEECH : Nat := 50362
def WHISPER_TRANSLATE : Nat := 50358
def WHISPER_TRANSCRIBE : Nat := 50359
def WHISPER_VOCAB_SIZE : Nat := 51865
def WHISPER_N_TEXT_CTX : Nat := 448
def NEG_INF : CFloat := CFloat.ninf

def WHISPER_LANG_CODES : List Nat := [
  50273,50303,50288,50261,50342,50299,50330,50302,50336,50267,50287,50292,50294,50323,50348,50291,50317,
  50326,50289,50356,50290,50282,50347,50331,50354,50264,50333,50296,50339,50318,50305,50293,50280,50322,
  50312,50306,50353,50285,50275,50340,50278,50268,50337,50316,50266,50307,50310,50338,50334,50313,50351,
  50260,50344,50283,50327,50272,50324,50276,50281,50301,50332,50300,50309,50343,50349,50335,50320,50259,
  50284,50304,50277,50311,50319,50314,50352,50328,50286,50274,50329,50270,50269,50350,50263,50345,50298,
  50279,50297,50262,50315,50321,50308,50355,50265,50346,50295,50271,50357,50341,50325]

def WHISPER_LANG_NAMES : List String := [
  "sv","sr","no","de","nn","te", "be","bn","lo","pt","ta","bg","la","km","tl","hr","sq","so","th","jw","ur","ms","bo",
  "tg","ha","ko","gu","ml","ht", "sw","sl","lt","uk","si","hy","kn","ln","da","id","ps","vi","tr","uz","kk","ja","et",
  "eu","fo","am","ne","tt","zh", "sa","cs","af","ar","sn","hi","el","lv","sd","fa","br","mt","mg","yi","mr","en","ro",
  "az","fi","is","gl","mn","haw","oc","hu","it","ka","ca","pl","as","ru","lb","sk","he","cy","es","bs","pa","mk","ba",
  "fr","my","mi","nl","su","tk", "yo"]

def SOT_SEQUENCE : List Nat := [WHISPER_SOT, 50260, WHISPER_TRANSCRIBE, WHISPER_NO_TIMESTAMPS]

/-! ## Vectors and loops -/

/-- The loop `for (k = 0; k < n; k++) s = body k s`. -/
def forLoop {σ : Type} (body : Nat → σ → σ) : Nat → σ → σ
  | 0, s => s
  | n + 1, s => body n (forLoop body n s)

/-- The store `v[i] = x` for an `int` index: `none` when the index is outside the
vector (an out-of-bounds write, undefined behaviour). -/
def vec_store (v : List CFloat) (i : Int) (x : CFloat) : Option (List CFloat) :=
  if 0 ≤ i ∧ i < (v.length : Int) then some (v.set i.toNat x) else none

/-- The load `mel[i][n]`, for `n` inside the row `mel[i]`. -/
def mat_load (mel : List (List CFloat)) (i n : Nat) : CFloat :=
  (mel.getD i []).getD n (CFloat.fin 0)

/-- The store `mel[i][n] = x`, for `n` inside the row `mel[i]`. -/
def mat_store (mel : List (List CFloat)) (i n : Nat) (x : CFloat) : List (List CFloat) :=
  mel.set i ((mel.getD i []).set n x)

/-- The call `v.resize(k)` on a `std::vector<float>`: truncate, or append zeros. -/
def resize (v : List CFloat) (k : Nat) : List CFloat :=
  v.take k ++ List.replicate (k - v.length) (CFloat.fin 0)

/-- The call `memcpy(dst.data() + off, src.data(), sizeof(float) * cnt)`. -/
def memcpy (dst : List CFloat) (off : Nat) (src : List CFloat) (cnt : Nat) : List CFloat :=
  forLoop (fun j d => d.set (off + j) (src.getD j (CFloat.fin 0))) cnt dst

/-- The call `std::copy(first, last, dst.begin())` with `src` the range `[first, last)`. -/
def std_copy (src dst : List CFloat) : List CFloat :=
  src ++ dst.drop src.length

/-! ## `supress_tokens`, `argmax`, `detect_language` -/

/-- Source: `supress_tokens` (main.cpp 64-74). -/
def supress_tokens (logits : List CFloat) (is_initial : Bool) : List CFloat :=
  let logits :=
    if is_initial then (logits.set WHISPER_EOT NEG_INF).set WHISPER_BLANK NEG_INF else logits
  let logits := logits.set WHISPER_NO_TIMESTAMPS NEG_INF
  let logits := logits.set WHISPER_SOT NEG_INF
  let logits := logits.set WHISPER_NO_SPEECH NEG_INF
  logits.set WHISPER_TRANSLATE NEG_INF

/-- The indices `supress_tokens` stores to, in the order of the stores. -/
def suppressed_ids (is_initial : Bool) : List Nat :=
  (if is_initial then [WHISPER_EOT, WHISPER_BLANK] else []) ++
    [WHISPER_NO_TIMESTAMPS, WHISPER_SOT, WHISPER_NO_SPEECH, WHISPER_TRANSLATE]

/-- The scan of `std::max_element`: `largest` is the index of the largest element so
far and `lv` its value, `i` is the index of the head of the remaining range. -/
def max_element_scan : Nat → CFloat → Nat → List CFloat → Nat
  | largest, _, _, [] => largest
  | largest, lv, i, x :: rest =>
    if CFloat.lt lv x then max_element_scan i x (i + 1) rest
    else max_element_scan largest lv (i + 1) rest

/-- The distance from `begin` of `std::max_element(begin, end)`; an empty range
returns `end`, at distance 0. -/
def max_element : List CFloat → Nat
  | [] => 0
  | x :: rest => max_element_scan 0 x 1 rest

/-- Source: `argmax` (main.cpp 76-79). -/
def argmax (logits : List CFloat) : Nat := max_element logits

/-- The `for` loop of `detect_language`: `k` iterations remain, `n` is the loop
variable; the result is the final value of `i`. -/
def detect_language_loop (language : String) : Nat → Nat → Nat
  | 0, _ => 51
  | k + 1, n =>
    if language = WHISPER_LANG_NAMES.getD n "" then n
    else detect_language_loop language k (n + 1)

/-- The final value of `i` in `detect_language`. -/
def detect_language_index (language : String) : Nat :=
  detect_language_loop language WHISPER_LANG_CODES.length 0

/-- Source: `detect_language` (main.cpp 81-91). -/
def detect_language (language : String) : Nat :=
  WHISPER_LANG_CODES.getD (detect_language_index language) 0

/-! ## The mel clamp / normalise / resize pass (main.cpp 211-253) -/

/-- Body of the first nested loop (main.cpp 218-222) on the pair `(mel, mmax)`. -/
def log_cell (log10 : CFloat → CFloat) (i n : Nat)
    (s : List (List CFloat) × CFloat) : List (List CFloat) × CFloat :=
  let mel := mat_store s.1 i n
    (log10 (CFloat.fmax (mat_load s.1 i n) (CFloat.fin (1 / 10 ^ 10))))
  let mmax := if CFloat.lt s.2 (mat_load mel i n) then mat_load mel i n else s.2
  (mel, mmax)

/-- The first nested loop (main.cpp 215-224), from `mmax = -1e20`. -/
def log_pass (log10 : CFloat → CFloat) (n_len : Nat)
    (mel : List (List CFloat)) : List (List CFloat) × CFloat :=
  forLoop (fun i s => forLoop (fun n s => log_cell log10 i n s) n_len s)
    WHISPER_N_MELS (mel, CFloat.fin (-(10 ^ 20)))

/-- Body of the second nested loop (main.cpp 228-229): normalise the cell, then
`mel[i].resize(3000)`. -/
def norm_cell (mmax : CFloat) (i n : Nat) (mel : List (List CFloat)) : List (List CFloat) :=
  let mel := mat_store mel i n
    (CFloat.divQ (CFloat.addQ (CFloat.fmax (mat_load mel i n) (CFloat.addQ mmax (-8))) 4) 4)
  mel.set i (resize (mel.getD i []) 3000)

/-- The second nested loop (main.cpp 226-231). -/
def norm_pass (mmax : CFloat) (n_len : Nat) (mel : List (List CFloat)) : List (List CFloat) :=
  forLoop (fun i mel => forLoop (fun n mel => norm_cell mmax i n mel) n_len mel)
    WHISPER_N_MELS mel

/-- The spectrogram after both loops (main.cpp 211-231); `n_len = mel[0].size()`. -/
def normalize_mel (log10 : CFloat → CFloat) (mel : List (List CFloat)) : List (List CFloat) :=
  let n_len := (mel.getD 0 []).length
  let s := log_pass log10 n_len mel
  norm_pass s.2 n_len s.1

/-- The buffer `continous_mel` (main.cpp 233, 250-253) built from the spectrogram
after the two loops. -/
def continous_mel (n_mel : Nat) (mel : List (List CFloat)) : List CFloat :=
  let n_len := (mel.getD 0 []).length
  forLoop (fun i buf => memcpy buf (i * n_len) (mel.getD i []) n_len) n_mel
    (List.replicate (WHISPER_N_MELS * n_len) (CFloat.fin 0))

/-- The buffer copied to the encoder input for the spectrogram `mel` returned by
`melspectrogram`; `n_mel = mel.size()` is read before the loops. -/
def encoder_input (log10 : CFloat → CFloat) (mel : List (List CFloat)) : List CFloat :=
  continous_mel mel.length (normalize_mel log10 mel)

/-! ## The decode loop (main.cpp 235-383) -/

/-- The host variables of the decode. -/
structure DecodeState where
  offset : Int
  logits : List CFloat
  max_token_id : Nat
  results : List Nat
  tokens : List Nat
  is_broke : Bool
  mask : List CFloat
  loop_token_num : Nat

/-- The index `WHISPER_N_TEXT_CTX - offset - 1` of main.cpp 310 and 374, an `int`. -/
def mask_index (offset : Int) : Int := (WHISPER_N_TEXT_CTX : Int) - offset - 1

/-- The start-of-transcript sequence after `SOT_SEQUENCE[1] = detect_language(language)`. -/
def sot_sequence (language : String) : List Nat :=
  SOT_SEQUENCE.set 1 (detect_language language)

/-- The mask of main.cpp 309-312 for the given offset.  The loop variable runs over
`0 ≤ n < WHISPER_N_TEXT_CTX - offset - 1` and the offset is `SOT_SEQUENCE.size()`, not
negative, so every store `mask[n] = NEG_INF` is inside the 448-entry mask. -/
def init_mask (offset : Int) : List CFloat :=
  forLoop (fun n mask => mask.set n NEG_INF) (mask_index offset).toNat
    (List.replicate WHISPER_N_TEXT_CTX (CFloat.fin 0))

/-- The first step (main.cpp 235-312): `decoder_main` runs on the start-of-transcript
sequence; `decoder_main_out` is the content of `decoder_main_logits` after the run,
`none` when the run fails. -/
def first_step (language : String) (decoder_main_out : Option (List CFloat)) :
    Option DecodeState :=
  match decoder_main_out with
  | none => none
  | some decoder_main_logits =>
    let offset : Int := 0 + ((sot_sequence language).length : Int)
    let logits := std_copy (decoder_main_logits.drop (3 * WHISPER_VOCAB_SIZE))
      (List.replicate WHISPER_VOCAB_SIZE (CFloat.fin 0))
    let logits := supress_tokens logits true
    some { offset := offset
           logits := logits
           max_token_id := argmax logits
           results := []
           tokens := [0]
           is_broke := false
           mask := init_mask offset
           loop_token_num := 0 }

/-- What one pass through the body of the decode loop does: break on
END_OF_TRANSCRIPT, `return -1` after a failed run, an out-of-bounds store to the mask
(undefined behaviour), or the state for the next pass. -/
inductive LoopStep where
  | brk (st : DecodeState) : LoopStep
  | fail : LoopStep
  | oob : LoopStep
  | next (st : DecodeState) : LoopStep

/-- The body of the decode loop (main.cpp 333-382) at loop counter `i`; `dec i` is the
content copied into `logits` after the run of `decoder_loop`, `none` when it fails.
The run comes before `offset += 1` and the store `mask[...] = 0`, as in the source. -/
def loop_body (dec : Nat → Option (List CFloat)) (i : Nat) (st : DecodeState) : LoopStep :=
  if st.max_token_id = WHISPER_EOT then
    LoopStep.brk { st with is_broke := true }
  else
    let results := st.results ++ [st.max_token_id]
    let tokens := st.tokens.set 0 st.max_token_id
    match dec i with
    | none => LoopStep.fail
    | some out =>
      let offset := st.offset + 1
      match vec_store st.mask (mask_index offset) (CFloat.fin 0) with
      | none => LoopStep.oob
      | some mask =>
        let logits := supress_tokens out false
        LoopStep.next { offset := offset
                        logits := logits
                        max_token_id := argmax logits
                        results := results
                        tokens := tokens
                        is_broke := st.is_broke
                        mask := mask
                        loop_token_num := st.loop_token_num + 1 }

/-- The decode loop with `k` iterations left before the bound and loop counter `i`;
`none` when a run fails or a pass stores outside the mask. -/
def decode_loop (dec : Nat → Option (List CFloat)) : Nat → Nat → DecodeState → Option DecodeState
  | 0, _, st => some st
  | k + 1, i, st =>
    match loop_body dec i st with
    | LoopStep.brk st' => some st'
    | LoopStep.fail => none
    | LoopStep.oob => none
    | LoopStep.next st' => decode_loop dec k (i + 1) st'

/-- The number of iterations the loop header allows,
`WHISPER_N_TEXT_CTX - SOT_SEQUENCE.size()`. -/
def loop_bound (language : String) : Nat := WHISPER_N_TEXT_CTX - (sot_sequence language).length

/-- The decode of `main` from the run of `decoder_main` to the end of the loop; `some`
is the state with which the loop ends, `none` is `return -1` after a failed run or a
store outside the mask (undefined behaviour). -/
def whisper_decode (language : String) (decoder_main_out : Option (List CFloat))
    (dec : Nat → Option (List CFloat)) : Option DecodeState :=
  match first_step language decoder_main_out with
  | none => none
  | some st => decode_loop dec (loop_bound language) 0 st

/-- The state after `j` complete passes through the loop body from `st`, `none` when
the loop left (break, failed run or out-of-bounds store) before completing `j` passes. -/
def state_after (dec : Nat → Option (List CFloat)) (st : DecodeState) : Nat → Option DecodeState
  | 0 => some st
  | j + 1 =>
    match state_after dec st j with
    | none => none
    | some s =>
      match loop_body dec j s with
      | LoopStep.next s' => some s'
      | _ => none

/-- The token selected before iteration `i` of the loop: the first-step token for
`i = 0`, then the arg-max of the suppressed logits of run `i - 1`. -/
def selected_token (t0 : Nat) (dec : Nat → Option (List CFloat)) : Nat → Option Nat
  | 0 => some t0
  | i + 1 => (dec i).map (fun out => argmax (supress_tokens out false))

/-- The property claimed of the index `r` returned for `logits`: the value there is
the maximum of the vector, and every entry at a smaller index is strictly less. -/
def IsFirstMaximum (logits : List CFloat) (r : Nat) : Prop :=
  ∃ m, logits[r]? = some m ∧ (∀ x ∈ logits, CFloat.le x m = true) ∧
    ∀ j y, j < r → logits[j]? = some y → CFloat.lt y m = true

/-- The property claimed of the mask at decode offset `k`: 448 entries, exactly the
last `k + 1` of them 0 and all earlier ones negative infinity. -/
def MaskAtOffset (mask : List CFloat) (k : Nat) : Prop :=
  mask.length = WHISPER_N_TEXT_CTX ∧
  mask = List.replicate (WHISPER_N_TEXT_CTX - (k + 1)) NEG_INF ++
    List.replicate (k + 1) (CFloat.fin 0)

/-- The mask holding `a` leading negative infinities and zeros after them. -/
def mask_with (a : Nat) : List CFloat :=
  List.replicate a NEG_INF ++ List.replicate (WHISPER_N_TEXT_CTX - a) (CFloat.fin 0)

/-- What holds of the state `s` reached after `j` complete passes through the loop
body, `t0` being the token selected at the first step. -/
def LoopInv (t0 : Nat) (dec : Nat → Option (List CFloat)) (j : Nat) (s : DecodeState) : Prop :=
  s.offset = 4 + (j : Int) ∧ s.results.length = j ∧ s.loop_token_num = j ∧
  (∀ n, n < j → s.results[n]? = selected_token t0 dec n) ∧
  (∀ t ∈ s.results, t ≠ WHISPER_EOT) ∧
  selected_token t0 dec j = some s.max_token_id ∧
  s.is_broke = false ∧
  s.mask = mask_with (443 - j)

/-- A decoder output on which the arg-max is never END_OF_TRANSCRIPT: 51865 zeros. -/
def zero_logits : List CFloat := List.replicate WHISPER_VOCAB_SIZE (CFloat.fin 0)

/-- The `decoder_main` output of `4 * 51865` zeros. -/
def zero_main_logits : List CFloat := List.replicate (4 * WHISPER_VOCAB_SIZE) (CFloat.fin 0)

/-- The `decoder_loop` stage that succeeds with all-zero logits on every run. -/
def zero_decoder : Nat → Option (List CFloat) := fun _ => some zero_logits

/-- Row-level form of `norm_cell`: what it does to the row `mel[i]`. -/
def norm_row_step (mmax : CFloat) (n : Nat) (r : List CFloat) : List CFloat :=
  resize (r.set n (CFloat.divQ (CFloat.addQ
    (CFloat.fmax (r.getD n (CFloat.fin 0)) (CFloat.addQ mmax (-8))) 4) 4)) 3000

/-- Row-level form of `log_cell`: what it does to the pair of the row `mel[i]` and `mmax`. -/
def log_row_step (log10 : CFloat → CFloat) (n : Nat)
    (p : List CFloat × CFloat) : List CFloat × CFloat :=
  let r := p.1.set n (log10 (CFloat.fmax (p.1.getD n (CFloat.fin 0)) (CFloat.fin (1 / 10 ^ 10))))
  (r, if CFloat.lt p.2 (r.getD n (CFloat.fin 0)) then r.getD n (CFloat.fin 0) else p.2)

/-- The silent power spectrogram: 80 rows of `n_len` zeros. -/
def silent_mel (n_len : Nat) : List (List CFloat) :=
  List.replicate WHISPER_N_MELS (List.replicate n_len (CFloat.fin 0))

/-- The floor value `(log10(1e-10) + 4) / 4`. -/
def mel_floor (log10 : CFloat → CFloat) : CFloat :=
  CFloat.divQ (CFloat.addQ (log10 (CFloat.fin (1 / 10 ^ 10))) 4) 4

/-- The property claimed of the tensor computed from the silent spectrogram: each of
its 80 × 3000 cells holds the floor value. -/
def AllCellsAtFloor (log10 : CFloat → CFloat) (n_len : Nat) : Prop :=
  ∀ i j, i < WHISPER_N_MELS → j < 3000 →
    mat_load (normalize_mel log10 (silent_mel n_len)) i j = mel_floor log10

/-- A decoder output whose arg-max is END_OF_TRANSCRIPT: zeros, and 1 at index 50257. -/
def eot_logits : List CFloat := zero_logits.set WHISPER_EOT (CFloat.fin 1)

/-- The `decoder_loop` stage that succeeds with `eot_logits` on every run. -/
def eot_decoder : Nat → Option (List CFloat) := fun _ => some eot_logits

/-! ## Theorems -/

/-! ## Order facts on `CFloat` -/

theorem cfloat_lt_irrefl (a : CFloat) : CFloat.lt a a = false := by
  cases a <;> simp [CFloat.lt]

theorem cfloat_lt_trans {a b c : CFloat} (h1 : CFloat.lt a b = true)
    (h2 : CFloat.lt b c = true) : CFloat.lt a c = true := by
  cases a <;> cases b <;> cases c <;> simp_all [CFloat.lt]
  exact lt_trans h1 h2

theorem cfloat_lt_asymm {a b : CFloat} (h : CFloat.lt a b = true) : CFloat.lt b a = false := by
  cases a <;> cases b <;> simp_all [CFloat.lt]
  exact le_of_lt h

theorem cfloat_not_lt_ninf (a : CFloat) : CFloat.lt a CFloat.ninf = false := by
  cases a <;> simp [CFloat.lt]

theorem cfloat_lt_of_not_lt_of_lt {a b c : CFloat} (hb : b ≠ CFloat.nan)
    (h1 : CFloat.lt a b = false) (h2 : CFloat.lt a c = true) : CFloat.lt b c = true := by
  cases a <;> cases b <;> cases c <;> simp_all [CFloat.lt]
  exact lt_of_le_of_lt h1 h2

theorem cfloat_le_of_lt {a b : CFloat} (h : CFloat.lt a b = true) : CFloat.le a b = true := by
  cases a <;> cases b <;> simp_all [CFloat.lt, CFloat.le]
  exact le_of_lt h

theorem cfloat_le_of_not_lt {a b : CFloat} (ha : a ≠ CFloat.nan) (hb : b ≠ CFloat.nan)
    (h : CFloat.lt a b = false) : CFloat.le b a = true := by
  cases a <;> cases b <;> simp_all [CFloat.lt, CFloat.le]

theorem cfloat_le_refl {a : CFloat} (ha : a ≠ CFloat.nan) : CFloat.le a a = true := by
  cases a <;> simp_all [CFloat.le]

/-! ## `std::max_element` -/

/-- Without any assumption on the values: the scan either keeps `largest`, or ends on
an element of the remaining range that some value is strictly below. -/
theorem max_element_scan_cases (rest : List CFloat) :
    ∀ (largest : Nat) (lv : CFloat) (i : Nat),
      max_element_scan largest lv i rest = largest ∨
      ∃ k x y, max_element_scan largest lv i rest = i + k ∧ rest[k]? = some x ∧
        CFloat.lt y x = true := by
  induction rest with
  | nil => intro largest lv i; left; rfl
  | cons z zs ih =>
    intro largest lv i
    by_cases hz : CFloat.lt lv z = true
    · simp only [max_element_scan, hz, if_true]
      rcases ih i z (i + 1) with h | ⟨k, x, y, hk, hx, hy⟩
      · right; exact ⟨0, z, lv, by simpa using h, by simp, hz⟩
      · right; exact ⟨k + 1, x, y, by omega, by simpa using hx, hy⟩
    · simp only [max_element_scan, hz]
      rcases ih largest lv (i + 1) with h | ⟨k, x, y, hk, hx, hy⟩
      · left; simpa using h
      · right; exact ⟨k + 1, x, y, by simp only [Bool.false_eq_true, if_false]; omega,
          by simpa using hx, hy⟩

/-- On values without NaN the scan keeps `largest` when nothing in the range exceeds
`lv`, and otherwise ends on the first element of the range that nothing exceeds. -/
theorem max_element_scan_spec (rest : List CFloat) :
    ∀ (largest : Nat) (lv : CFloat) (i : Nat), (∀ z ∈ rest, z ≠ CFloat.nan) →
      (max_element_scan largest lv i rest = largest ∧ ∀ z ∈ rest, CFloat.lt lv z = false) ∨
      ∃ k x, max_element_scan largest lv i rest = i + k ∧ rest[k]? = some x ∧
        CFloat.lt lv x = true ∧
        (∀ j y, j < k → rest[j]? = some y → CFloat.lt y x = true) ∧
        (∀ z ∈ rest, CFloat.lt x z = false) := by
  induction rest with
  | nil => intro largest lv i _; left; exact ⟨rfl, by simp⟩
  | cons z zs ih =>
    intro largest lv i hnan
    have hz0 : z ≠ CFloat.nan := hnan z (by simp)
    have hzs : ∀ w ∈ zs, w ≠ CFloat.nan := fun w hw => hnan w (by simp [hw])
    by_cases hz : CFloat.lt lv z = true
    · simp only [max_element_scan, hz, if_true]
      rcases ih i z (i + 1) hzs with ⟨h, hall⟩ | ⟨k, x, hk, hx, hlt, hbefore, hall⟩
      · right
        refine ⟨0, z, by simpa using h, by simp, hz, ?_, ?_⟩
        · intro j y hj; omega
        · intro w hw
          rcases List.mem_cons.mp hw with rfl | hw
          · exact cfloat_lt_irrefl _
          · exact hall w hw
      · right
        refine ⟨k + 1, x, by omega, by simpa using hx, cfloat_lt_trans hz hlt, ?_, ?_⟩
        · intro j y hj hy
          cases j with
          | zero =>
            have : y = z := by simpa using hy.symm
            subst this; exact hlt
          | succ j => exact hbefore j y (by omega) (by simpa using hy)
        · intro w hw
          rcases List.mem_cons.mp hw with rfl | hw
          · exact cfloat_lt_asymm hlt
          · exact hall w hw
    · have hz' : CFloat.lt lv z = false := by simpa using hz
      simp only [max_element_scan, hz', Bool.false_eq_true, if_false]
      rcases ih largest lv (i + 1) hzs with ⟨h, hall⟩ | ⟨k, x, hk, hx, hlt, hbefore, hall⟩
      · left
        refine ⟨h, ?_⟩
        intro w hw
        rcases List.mem_cons.mp hw with rfl | hw
        · exact hz'
        · exact hall w hw
      · right
        have hzx : CFloat.lt z x = true := cfloat_lt_of_not_lt_of_lt hz0 hz' hlt
        refine ⟨k + 1, x, by omega, by simpa using hx, hlt, ?_, ?_⟩
        · intro j y hj hy
          cases j with
          | zero =>
            have : y = z := by simpa using hy.symm
            subst this; exact hzx
          | succ j => exact hbefore j y (by omega) (by simpa using hy)
        · intro w hw
          rcases List.mem_cons.mp hw with rfl | hw
          · exact cfloat_lt_asymm hzx
          · exact hall w hw

/-- The index returned by `argmax` is 0, or holds a value other than negative infinity. -/
theorem argmax_zero_or_not_ninf (l : List CFloat) :
    argmax l = 0 ∨ ∃ x, l[argmax l]? = some x ∧ x ≠ CFloat.ninf := by
  cases l with
  | nil => left; rfl
  | cons a rest =>
    rcases max_element_scan_cases rest 0 a 1 with h | ⟨k, x, y, hk, hx, hy⟩
    · left; exact h
    · right
      refine ⟨x, ?_, ?_⟩
      · have : argmax (a :: rest) = k + 1 := by
          simp only [argmax, max_element]; omega
        rw [this]; simpa using hx
      · intro hninf
        rw [hninf, cfloat_not_lt_ninf] at hy
        exact Bool.false_ne_true hy

theorem isFirstMaximum_argmax (logits : List CFloat) (hne : logits ≠ [])
    (hnan : ∀ x ∈ logits, x ≠ CFloat.nan) : IsFirstMaximum logits (argmax logits) := by
  cases logits with
  | nil => exact absurd rfl hne
  | cons a rest =>
    have ha : a ≠ CFloat.nan := hnan a (by simp)
    have hrest : ∀ z ∈ rest, z ≠ CFloat.nan := fun z hz => hnan z (by simp [hz])
    rcases max_element_scan_spec rest 0 a 1 hrest with
      ⟨h, hall⟩ | ⟨k, m, hk, hm, hlt, hbefore, hall⟩
    · have hr : argmax (a :: rest) = 0 := h
      rw [hr]
      refine ⟨a, by simp, ?_, ?_⟩
      · intro y hy
        rcases List.mem_cons.mp hy with rfl | hy
        · exact cfloat_le_refl ha
        · exact cfloat_le_of_not_lt ha (hrest y hy) (hall y hy)
      · intro j y hj; omega
    · have hr : argmax (a :: rest) = k + 1 := by
        simp only [argmax, max_element]; omega
      have hmem : m ∈ rest := List.mem_iff_getElem?.mpr ⟨k, hm⟩
      rw [hr]
      refine ⟨m, by simpa using hm, ?_, ?_⟩
      · intro y hy
        rcases List.mem_cons.mp hy with rfl | hy
        · exact cfloat_le_of_lt hlt
        · exact cfloat_le_of_not_lt (hrest m hmem) (hrest y hy) (hall y hy)
      · intro j y hj hy
        cases j with
        | zero =>
          have : y = a := by simpa using hy.symm
          subst this; exact hlt
        | succ j => exact hbefore j y (by omega) (by simpa using hy)

/-- C4 (as amended): for every non-empty logits vector without a NaN entry, `argmax`
returns an index whose value is the maximum of the vector, and every entry at a
smaller index is strictly less than that maximum (the lowest index of the maximum). -/
theorem argmax_first_maximum (logits : List CFloat) (hne : logits ≠ [])
    (hnan : ∀ x ∈ logits, x ≠ CFloat.nan) : IsFirstMaximum logits (argmax logits) :=
  isFirstMaximum_argmax logits hne hnan

theorem argmax_first_maximum_witness :
    IsFirstMaximum [CFloat.fin 1, CFloat.fin 3, CFloat.ninf, CFloat.fin 3]
      (argmax [CFloat.fin 1, CFloat.fin 3, CFloat.ninf, CFloat.fin 3]) :=
  argmax_first_maximum [CFloat.fin 1, CFloat.fin 3, CFloat.ninf, CFloat.fin 3]
    (by simp) (by simp)

/-- C4 as stated fails on a vector holding a NaN: for `{1, NaN, 2}` the scan returns
index 2, and the entry at the smaller index 1 is not strictly less than the value
there (nor is it at most that value). -/
theorem argmax_nan_counterexample :
    argmax [CFloat.fin 1, CFloat.nan, CFloat.fin 2] = 2 ∧
    ¬ IsFirstMaximum [CFloat.fin 1, CFloat.nan, CFloat.fin 2]
        (argmax [CFloat.fin 1, CFloat.nan, CFloat.fin 2]) := by
  have h : argmax [CFloat.fin 1, CFloat.nan, CFloat.fin 2] = 2 := by
    simp [argmax, max_element, max_element_scan, CFloat.lt]
  refine ⟨h, ?_⟩
  rw [h]
  rintro ⟨m, hm, _, hlt⟩
  have h1 := hlt 1 CFloat.nan (by omega) (by simp)
  simp [CFloat.lt] at h1

/-! ## `supress_tokens` -/

theorem supress_tokens_length (l : List CFloat) (b : Bool) :
    (supress_tokens l b).length = l.length := by
  cases b <;> simp [supress_tokens]

/-- Entry `j` after `supress_tokens`: negative infinity at a suppressed index inside the
vector, the old entry elsewhere. -/
theorem supress_tokens_getElem? (l : List CFloat) (b : Bool) (j : Nat) :
    (supress_tokens l b)[j]? =
      if j ∈ suppressed_ids b then (if j < l.length then some NEG_INF else none) else l[j]? := by
  cases b
  · simp only [supress_tokens, suppressed_ids, List.getElem?_set, List.length_set,
      WHISPER_NO_TIMESTAMPS, WHISPER_SOT, WHISPER_NO_SPEECH, WHISPER_TRANSLATE,
      Bool.false_eq_true, if_false, List.nil_append, List.mem_cons, List.mem_singleton,
      List.mem_nil_iff, or_false]
    split_ifs <;> first | rfl | omega
  · simp only [supress_tokens, suppressed_ids, List.getElem?_set, List.length_set,
      WHISPER_NO_TIMESTAMPS, WHISPER_SOT, WHISPER_NO_SPEECH, WHISPER_TRANSLATE,
      WHISPER_EOT, WHISPER_BLANK,
      if_true, List.cons_append, List.nil_append, List.mem_cons, List.mem_singleton,
      List.mem_nil_iff, or_false]
    split_ifs <;> first | rfl | omega

theorem count_set_ninf (l : List CFloat) (i : Nat) (h : i < l.length)
    (hi : l[i]? ≠ some NEG_INF) :
    (l.set i NEG_INF).count NEG_INF = l.count NEG_INF + 1 := by
  rw [List.count_set NEG_INF NEG_INF l i h]
  have : (l[i] == NEG_INF) = false := by
    rw [List.getElem?_eq_getElem h] at hi
    simpa using hi
  simp [this]

theorem supress_tokens_count (logits : List CFloat)
    (hlen : logits.length = WHISPER_VOCAB_SIZE) (hno : ∀ x ∈ logits, x ≠ NEG_INF) :
    (supress_tokens logits true).count NEG_INF = 6 ∧
    (supress_tokens logits false).count NEG_INF = 4 := by
  have hne : ∀ j, logits[j]? ≠ some NEG_INF := fun j h =>
    hno _ (List.mem_iff_getElem?.mpr ⟨j, h⟩) rfl
  have h0 : logits.count NEG_INF = 0 := List.count_eq_zero.mpr (fun h => hno _ h rfl)
  simp only [WHISPER_VOCAB_SIZE] at hlen
  constructor
  · simp only [supress_tokens, if_true, WHISPER_NO_TIMESTAMPS, WHISPER_SOT, WHISPER_NO_SPEECH,
      WHISPER_TRANSLATE, WHISPER_EOT, WHISPER_BLANK]
    rw [count_set_ninf _ _ (by simp only [List.length_set]; omega)
          (by simp only [List.getElem?_set]; simpa using hne _),
        count_set_ninf _ _ (by simp only [List.length_set]; omega)
          (by simp only [List.getElem?_set]; simpa using hne _),
        count_set_ninf _ _ (by simp only [List.length_set]; omega)
          (by simp only [List.getElem?_set]; simpa using hne _),
        count_set_ninf _ _ (by simp only [List.length_set]; omega)
          (by simp only [List.getElem?_set]; simpa using hne _),
        count_set_ninf _ _ (by simp only [List.length_set]; omega)
          (by simp only [List.getElem?_set]; simpa using hne _),
        count_set_ninf _ _ (by omega) (hne _), h0]
  · simp only [supress_tokens, Bool.false_eq_true, if_false, WHISPER_NO_TIMESTAMPS, WHISPER_SOT,
      WHISPER_NO_SPEECH, WHISPER_TRANSLATE]
    rw [count_set_ninf _ _ (by simp only [List.length_set]; omega)
          (by simp only [List.getElem?_set]; simpa using hne _),
        count_set_ninf _ _ (by simp only [List.length_set]; omega)
          (by simp only [List.getElem?_set]; simpa using hne _),
        count_set_ninf _ _ (by simp only [List.length_set]; omega)
          (by simp only [List.getElem?_set]; simpa using hne _),
        count_set_ninf _ _ (by omega) (hne _), h0]

/-- C5: on a logits vector of vocabulary size (51865) holding no negative infinity,
`supress_tokens` with `is_initial = true` leaves exactly six entries at negative
infinity, those at EOT, BLANK, NO_TIMESTAMPS, SOT, NO_SPEECH and TRANSLATE, and with
`is_initial = false` exactly four (NO_TIMESTAMPS, SOT, NO_SPEECH, TRANSLATE); every
other entry keeps its value and the length is unchanged. -/
theorem supress_tokens_exact (logits : List CFloat)
    (hlen : logits.length = WHISPER_VOCAB_SIZE) (hno : ∀ x ∈ logits, x ≠ NEG_INF) :
    ((supress_tokens logits true).length = logits.length ∧
      (supress_tokens logits true).count NEG_INF = 6 ∧
      (∀ j, (supress_tokens logits true)[j]? = some NEG_INF ↔
        j ∈ [WHISPER_EOT, WHISPER_BLANK, WHISPER_NO_TIMESTAMPS, WHISPER_SOT,
          WHISPER_NO_SPEECH, WHISPER_TRANSLATE]) ∧
      (∀ j, j ∉ [WHISPER_EOT, WHISPER_BLANK, WHISPER_NO_TIMESTAMPS, WHISPER_SOT,
          WHISPER_NO_SPEECH, WHISPER_TRANSLATE] →
        (supress_tokens logits true)[j]? = logits[j]?)) ∧
    ((supress_tokens logits false).length = logits.length ∧
      (supress_tokens logits false).count NEG_INF = 4 ∧
      (∀ j, (supress_tokens logits false)[j]? = some NEG_INF ↔
        j ∈ [WHISPER_NO_TIMESTAMPS, WHISPER_SOT, WHISPER_NO_SPEECH, WHISPER_TRANSLATE]) ∧
      (∀ j, j ∉ [WHISPER_NO_TIMESTAMPS, WHISPER_SOT, WHISPER_NO_SPEECH, WHISPER_TRANSLATE] →
        (supress_tokens logits false)[j]? = logits[j]?)) := by
  have hne : ∀ j, logits[j]? ≠ some NEG_INF := fun j h =>
    hno _ (List.mem_iff_getElem?.mpr ⟨j, h⟩) rfl
  have hcount := supress_tokens_count logits hlen hno
  have hin : ∀ b j, j ∈ suppressed_ids b → j < logits.length := by
    intro b j hj
    cases b <;>
      simp only [suppressed_ids, WHISPER_NO_TIMESTAMPS, WHISPER_SOT, WHISPER_NO_SPEECH,
        WHISPER_TRANSLATE, WHISPER_EOT, WHISPER_BLANK, if_true, Bool.false_eq_true, if_false,
        List.cons_append, List.nil_append, List.mem_cons, List.mem_singleton,
        List.mem_nil_iff, or_false, WHISPER_VOCAB_SIZE] at hj hlen <;> omega
  have key : ∀ b j, ((supress_tokens logits b)[j]? = some NEG_INF ↔ j ∈ suppressed_ids b) ∧
      (j ∉ suppressed_ids b → (supress_tokens logits b)[j]? = logits[j]?) := by
    intro b j
    rw [supress_tokens_getElem?]
    by_cases hj : j ∈ suppressed_ids b
    · simp [hj, hin b j hj]
    · simp [hj, hne j]
  exact ⟨⟨supress_tokens_length _ _, hcount.1, fun j => (key true j).1, fun j => (key true j).2⟩,
    ⟨supress_tokens_length _ _, hcount.2, fun j => (key false j).1, fun j => (key false j).2⟩⟩

theorem supress_tokens_exact_witness :
    (supress_tokens (List.replicate WHISPER_VOCAB_SIZE (CFloat.fin 0)) true).count NEG_INF = 6 ∧
    (supress_tokens (List.replicate WHISPER_VOCAB_SIZE (CFloat.fin 0)) false).count NEG_INF = 4 :=
  have h := supress_tokens_exact (List.replicate WHISPER_VOCAB_SIZE (CFloat.fin 0))
    (List.length_replicate _ _)
    (fun x hx => by rw [List.eq_of_mem_replicate hx]; simp [NEG_INF])
  ⟨h.1.2.1, h.2.2.1⟩

theorem zero_not_suppressed (b : Bool) : 0 ∉ suppressed_ids b := by
  cases b <;> simp [suppressed_ids, WHISPER_NO_TIMESTAMPS, WHISPER_SOT, WHISPER_NO_SPEECH,
    WHISPER_TRANSLATE, WHISPER_EOT, WHISPER_BLANK]

/-- The arg-max of a suppressed vector is never an index `supress_tokens` stores to. -/
theorem argmax_not_suppressed (l : List CFloat) (b : Bool) :
    argmax (supress_tokens l b) ∉ suppressed_ids b := by
  intro hmem
  rcases argmax_zero_or_not_ninf (supress_tokens l b) with h0 | ⟨x, hx, hne⟩
  · rw [h0] at hmem
    exact zero_not_suppressed b hmem
  · rw [supress_tokens_getElem?, if_pos hmem] at hx
    split at hx
    · exact hne (Option.some.inj hx).symm
    · exact Option.noConfusion hx

theorem argmax_initial_ne_eot (l : List CFloat) :
    argmax (supress_tokens l true) ≠ WHISPER_EOT ∧
    argmax (supress_tokens l true) ≠ WHISPER_BLANK := by
  have h := argmax_not_suppressed l true
  constructor
  · intro he; apply h; rw [he]; simp [suppressed_ids]
  · intro he; apply h; rw [he]; simp [suppressed_ids]

/-! ## The decode loop -/

theorem sot_sequence_length (language : String) : (sot_sequence language).length = 4 := by
  simp [sot_sequence, SOT_SEQUENCE]

theorem loop_bound_eq (language : String) : loop_bound language = 444 := by
  simp [loop_bound, sot_sequence_length, WHISPER_N_TEXT_CTX]

theorem mask_with_length (a : Nat) (ha : a ≤ 448) : (mask_with a).length = 448 := by
  simp only [mask_with, WHISPER_N_TEXT_CTX, List.length_append, List.length_replicate]
  omega

/-- Storing 0 just before the zeros moves the boundary down by one. -/
theorem mask_with_set (a : Nat) (ha : a + 1 ≤ 448) :
    (mask_with (a + 1)).set a (CFloat.fin 0) = mask_with a := by
  apply List.ext_getElem?
  intro n
  simp only [mask_with, WHISPER_N_TEXT_CTX, List.getElem?_set, List.getElem?_append,
    List.getElem?_replicate, List.length_append, List.length_replicate]
  split_ifs <;> first | rfl | omega

/-- Storing negative infinity at the boundary moves it up by one. -/
theorem mask_with_set_ninf (a : Nat) (ha : a + 1 ≤ 448) :
    (mask_with a).set a NEG_INF = mask_with (a + 1) := by
  apply List.ext_getElem?
  intro n
  simp only [mask_with, WHISPER_N_TEXT_CTX, List.getElem?_set, List.getElem?_append,
    List.getElem?_replicate, List.length_append, List.length_replicate]
  split_ifs <;> first | rfl | omega

/-- A store inside the vector succeeds. -/
theorem vec_store_in_range (v : List CFloat) (n : Nat) (x : CFloat) (h : n < v.length) :
    vec_store v (n : Int) x = some (v.set n x) := by
  simp only [vec_store]
  rw [if_pos ⟨by omega, by omega⟩, Int.toNat_ofNat]

/-- A store at a negative index is outside the vector. -/
theorem vec_store_negative (v : List CFloat) (i : Int) (x : CFloat) (h : i < 0) :
    vec_store v i x = none := by
  simp only [vec_store]
  rw [if_neg (by omega)]

/-- The stores of the initial loop stay inside the mask for every offset from 0 on. -/
theorem init_mask_in_bounds (offset : Int) (h : 0 ≤ offset) (n : Nat)
    (hn : n < (mask_index offset).toNat) : n < WHISPER_N_TEXT_CTX := by
  simp only [mask_index, WHISPER_N_TEXT_CTX] at hn ⊢
  omega

theorem init_mask_loop (k : Nat) (hk : k ≤ 448) :
    forLoop (fun n mask => mask.set n NEG_INF) k
      (List.replicate WHISPER_N_TEXT_CTX (CFloat.fin 0)) = mask_with k := by
  induction k with
  | zero => simp [forLoop, mask_with]
  | succ k ih =>
    simp only [forLoop]
    rw [ih (by omega)]
    exact mask_with_set_ninf k hk

theorem init_mask_four : init_mask 4 = mask_with 443 := by
  have h : (mask_index 4).toNat = 443 := by
    simp [mask_index, WHISPER_N_TEXT_CTX]
  rw [init_mask, h]
  exact init_mask_loop 443 (by omega)

/-- The first step succeeds whenever `decoder_main` does: offset 4, the arg-max of the
suppressed last row of logits, and the mask with 443 leading negative infinities. -/
theorem first_step_eq (language : String) (m : List CFloat) :
    first_step language (some m) =
      some { offset := 4
             logits := supress_tokens (std_copy (m.drop (3 * WHISPER_VOCAB_SIZE))
               (List.replicate WHISPER_VOCAB_SIZE (CFloat.fin 0))) true
             max_token_id := argmax (supress_tokens (std_copy (m.drop (3 * WHISPER_VOCAB_SIZE))
               (List.replicate WHISPER_VOCAB_SIZE (CFloat.fin 0))) true)
             results := []
             tokens := [0]
             is_broke := false
             mask := mask_with 443
             loop_token_num := 0 } := by
  have hoff : (0 : Int) + ((4 : Nat) : Int) = 4 := by norm_num
  simp only [first_step, sot_sequence_length, hoff, init_mask_four]

/-- The body breaks on END_OF_TRANSCRIPT, fails with the run, stores outside the
mask, or appends the token and continues with the state written out here. -/
theorem loop_body_cases (dec : Nat → Option (List CFloat)) (i : Nat) (st : DecodeState) :
    (st.max_token_id = WHISPER_EOT ∧
      loop_body dec i st = LoopStep.brk { st with is_broke := true }) ∨
    (st.max_token_id ≠ WHISPER_EOT ∧ dec i = none ∧ loop_body dec i st = LoopStep.fail) ∨
    (st.max_token_id ≠ WHISPER_EOT ∧ (∃ out, dec i = some out) ∧
      vec_store st.mask (mask_index (st.offset + 1)) (CFloat.fin 0) = none ∧
      loop_body dec i st = LoopStep.oob) ∨
    (st.max_token_id ≠ WHISPER_EOT ∧ ∃ out mask, dec i = some out ∧
      vec_store st.mask (mask_index (st.offset + 1)) (CFloat.fin 0) = some mask ∧
      loop_body dec i st = LoopStep.next
        { offset := st.offset + 1
          logits := supress_tokens out false
          max_token_id := argmax (supress_tokens out false)
          results := st.results ++ [st.max_token_id]
          tokens := st.tokens.set 0 st.max_token_id
          is_broke := st.is_broke
          mask := mask
          loop_token_num := st.loop_token_num + 1 }) := by
  by_cases h : st.max_token_id = WHISPER_EOT
  · left; exact ⟨h, by simp [loop_body, h]⟩
  · right
    cases hd : dec i with
    | none => left; exact ⟨h, rfl, by simp [loop_body, h, hd]⟩
    | some out =>
      right
      cases hv : vec_store st.mask (mask_index (st.offset + 1)) (CFloat.fin 0) with
      | none => left; exact ⟨h, ⟨out, rfl⟩, rfl, by simp [loop_body, h, hd, hv]⟩
      | some mask => right; exact ⟨h, out, mask, rfl, rfl, by simp [loop_body, h, hd, hv]⟩

/-- The mask store of pass `j + 1`, for `j ≤ 442`, is inside the mask and keeps it in
the family `mask_with`. -/
theorem mask_step (j : Nat) (hj : j ≤ 442) :
    vec_store (mask_with (443 - j)) (mask_index (4 + (j : Int) + 1)) (CFloat.fin 0) =
      some (mask_with (443 - (j + 1))) := by
  have hi : mask_index (4 + (j : Int) + 1) = ((442 - j : Nat) : Int) := by
    simp only [mask_index, WHISPER_N_TEXT_CTX]; omega
  have h1 : 443 - j = (442 - j) + 1 := by omega
  have h2 : 443 - (j + 1) = 442 - j := by omega
  rw [hi, vec_store_in_range _ _ _ (by rw [mask_with_length _ (by omega)]; omega), h1, h2]
  rw [mask_with_set (442 - j) (by omega)]

/-- From pass 444 on (`j ≥ 443` passes done) the mask store has a negative index. -/
theorem mask_step_oob (j : Nat) (hj : 443 ≤ j) (mask : List CFloat) :
    vec_store mask (mask_index (4 + (j : Int) + 1)) (CFloat.fin 0) = none := by
  apply vec_store_negative
  simp only [mask_index, WHISPER_N_TEXT_CTX]; omega

theorem loopInv_step (t0 : Nat) (dec : Nat → Option (List CFloat)) (j : Nat)
    (s s' : DecodeState) (hinv : LoopInv t0 dec j s)
    (hstep : loop_body dec j s = LoopStep.next s') :
    j ≤ 442 ∧ LoopInv t0 dec (j + 1) s' := by
  obtain ⟨hoff, hlen, hnum, hres, hne, hsel, hbrk, hmask⟩ := hinv
  rcases loop_body_cases dec j s with
    ⟨_, hb⟩ | ⟨_, _, hb⟩ | ⟨_, _, _, hb⟩ | ⟨hneot, out, mask, hout, hstore, hb⟩
  · rw [hb] at hstep; exact LoopStep.noConfusion hstep
  · rw [hb] at hstep; exact LoopStep.noConfusion hstep
  · rw [hb] at hstep; exact LoopStep.noConfusion hstep
  · rw [hb] at hstep
    have hs' := LoopStep.next.inj hstep
    subst hs'
    rw [hmask, hoff] at hstore
    have hj : j ≤ 442 := by
      by_contra hc
      rw [mask_step_oob j (by omega)] at hstore
      exact Option.noConfusion hstore
    rw [mask_step j hj] at hstore
    have hmask' := Option.some.inj hstore
    refine ⟨hj, ?_, ?_, ?_, ?_, ?_, ?_, ?_, ?_⟩
    · simp only [hoff]; push_cast; ring
    · simp [hlen]
    · simp [hnum]
    · intro n hn
      by_cases hnj : n < j
      · rw [← hres n hnj]
        exact List.getElem?_append_left (by omega)
      · have : n = j := by omega
        subst this
        rw [hsel]
        simp only
        rw [List.getElem?_append_right (by omega)]
        simp [hlen]
    · intro t ht
      rcases List.mem_append.mp ht with h | h
      · exact hne t h
      · have : t = s.max_token_id := by simpa using h
        rw [this]; exact hneot
    · simp [selected_token, hout]
    · exact hbrk
    · exact hmask'.symm

theorem state_after_succ_inv (dec : Nat → Option (List CFloat)) (st0 : DecodeState)
    (j : Nat) (s : DecodeState) (hs : state_after dec st0 (j + 1) = some s) :
    ∃ p, state_after dec st0 j = some p ∧ loop_body dec j p = LoopStep.next s := by
  simp only [state_after] at hs
  cases hp : state_after dec st0 j with
  | none => rw [hp] at hs; exact Option.noConfusion hs
  | some p =>
    rw [hp] at hs
    simp only at hs
    cases hb : loop_body dec j p with
    | brk q => rw [hb] at hs; exact Option.noConfusion hs
    | fail => rw [hb] at hs; exact Option.noConfusion hs
    | oob => rw [hb] at hs; exact Option.noConfusion hs
    | next q =>
      rw [hb] at hs
      have : q = s := by simpa using hs
      subst this
      exact ⟨p, rfl, hb⟩

/-- Every state reached by complete passes satisfies the invariant, and at most 443
passes complete. -/
theorem loopInv_state_after (t0 : Nat) (dec : Nat → Option (List CFloat)) (st0 : DecodeState)
    (h0 : LoopInv t0 dec 0 st0) :
    ∀ j s, state_after dec st0 j = some s → j ≤ 443 ∧ LoopInv t0 dec j s := by
  intro j
  induction j with
  | zero =>
    intro s hs
    have : st0 = s := by simpa [state_after] using hs
    subst this; exact ⟨by omega, h0⟩
  | succ j ih =>
    intro s hs
    obtain ⟨p, hp, hb⟩ := state_after_succ_inv dec st0 j s hs
    obtain ⟨hj, hinv⟩ := loopInv_step t0 dec j p s (ih p hp).2 hb
    exact ⟨by omega, hinv⟩

/-- The result of the loop is the state after some number `j` of complete passes:
either the bound was reached, or pass `j + 1` found END_OF_TRANSCRIPT and broke. -/
theorem decode_loop_state_after (dec : Nat → Option (List CFloat)) (st0 : DecodeState) :
    ∀ (k i : Nat) (s s' : DecodeState), state_after dec st0 i = some s →
      decode_loop dec k i s = some s' →
      ∃ j p, i ≤ j ∧ j ≤ i + k ∧ state_after dec st0 j = some p ∧
        ((j = i + k ∧ s' = p) ∨
         (j < i + k ∧ p.max_token_id = WHISPER_EOT ∧ s' = { p with is_broke := true })) := by
  intro k
  induction k with
  | zero =>
    intro i s s' hs hd
    have : s = s' := by simpa [decode_loop] using hd
    subst this
    exact ⟨i, s, le_refl _, by omega, hs, Or.inl ⟨rfl, rfl⟩⟩
  | succ k ih =>
    intro i s s' hs hd
    simp only [decode_loop] at hd
    rcases loop_body_cases dec i s with
      ⟨heot, hb⟩ | ⟨_, _, hb⟩ | ⟨_, _, _, hb⟩ | ⟨_, out, mask, _, _, hb⟩
    · rw [hb] at hd
      have : { s with is_broke := true } = s' := by simpa using hd
      exact ⟨i, s, le_refl _, by omega, hs, Or.inr ⟨by omega, heot, this.symm⟩⟩
    · rw [hb] at hd; exact Option.noConfusion hd
    · rw [hb] at hd; exact Option.noConfusion hd
    · rw [hb] at hd
      simp only at hd
      obtain ⟨j, p, h1, h2, h3, h4⟩ :=
        ih (i + 1) _ s' (by simp only [state_after, hs, hb]) hd
      refine ⟨j, p, by omega, by omega, h3, ?_⟩
      rcases h4 with ⟨h5, h6⟩ | ⟨h5, h6⟩
      · exact Or.inl ⟨by omega, h6⟩
      · exact Or.inr ⟨by omega, h6⟩

/-- The loop passes over complete passes: after `j` of them from counter `i` it
continues from the state they lead to. -/
theorem decode_loop_skip (dec : Nat → Option (List CFloat)) (st0 : DecodeState) (k i : Nat)
    (s : DecodeState) (hs : state_after dec st0 i = some s) :
    ∀ j s', state_after dec st0 (i + j) = some s' →
      decode_loop dec (j + k) i s = decode_loop dec k (i + j) s' := by
  intro j
  induction j generalizing k with
  | zero =>
    intro s' hs'
    have : s = s' := by
      have h := hs.symm.trans hs'
      exact Option.some.inj h
    subst this
    simp
  | succ j ih =>
    intro s' hs'
    obtain ⟨p, hp, hb⟩ := state_after_succ_inv dec st0 (i + j) s' hs'
    have h1 : j + 1 + k = j + (k + 1) := by omega
    rw [h1, ih (k + 1) p hp]
    simp only [decode_loop, hb]
    rfl

/-- The loop from its start passes over the first `j` complete passes. -/
theorem decode_loop_skip_start (dec : Nat → Option (List CFloat)) (st0 : DecodeState)
    (k j : Nat) (s' : DecodeState) (hs' : state_after dec st0 j = some s') :
    decode_loop dec (j + k) 0 st0 = decode_loop dec k j s' := by
  have h := decode_loop_skip dec st0 k 0 st0 rfl j s' (by rw [Nat.zero_add]; exact hs')
  rw [Nat.zero_add] at h
  exact h

/-- After a successful first step the decode is the loop run from its state. -/
theorem whisper_decode_eq (language : String) (main : Option (List CFloat))
    (dec : Nat → Option (List CFloat)) (st0 : DecodeState)
    (h0 : first_step language main = some st0) :
    whisper_decode language main dec = decode_loop dec 444 0 st0 := by
  simp only [whisper_decode, h0, loop_bound_eq]

/-- The state after the first step satisfies the loop invariant at 0. -/
theorem first_step_inv (language : String) (main : Option (List CFloat))
    (dec : Nat → Option (List CFloat)) (st0 : DecodeState)
    (h : first_step language main = some st0) :
    LoopInv st0.max_token_id dec 0 st0 ∧ st0.max_token_id ≠ WHISPER_EOT ∧
      st0.max_token_id ≠ WHISPER_BLANK := by
  cases main with
  | none => exact Option.noConfusion h
  | some m =>
    rw [first_step_eq] at h
    have h' := Option.some.inj h
    subst h'
    refine ⟨⟨by simp, rfl, rfl, ?_, ?_, rfl, rfl, rfl⟩, ?_⟩
    · intro n hn; omega
    · intro t ht; simp at ht
    · exact argmax_initial_ne_eot _

/-- The shape of every completed decode: the state `p` after some `j ≤ 444` complete
passes, returned as it is at the bound or with `is_broke` set after a break. -/
theorem whisper_decode_result (language : String) (main : Option (List CFloat))
    (dec : Nat → Option (List CFloat)) (st : DecodeState)
    (h : whisper_decode language main dec = some st) :
    ∃ st0 j p, first_step language main = some st0 ∧ st0.max_token_id ≠ WHISPER_EOT ∧
      st0.max_token_id ≠ WHISPER_BLANK ∧ j ≤ 444 ∧
      state_after dec st0 j = some p ∧ LoopInv st0.max_token_id dec j p ∧
      ((j = 444 ∧ st = p) ∨
       (j < 444 ∧ p.max_token_id = WHISPER_EOT ∧ st = { p with is_broke := true })) := by
  simp only [whisper_decode] at h
  cases h0 : first_step language main with
  | none => rw [h0] at h; exact Option.noConfusion h
  | some st0 =>
    rw [h0] at h
    simp only [loop_bound_eq] at h
    obtain ⟨hinv, hne, hnb⟩ := first_step_inv language main dec st0 h0
    obtain ⟨j, p, _, hj, hp, hcase⟩ := decode_loop_state_after dec st0 444 0 st0 st rfl h
    refine ⟨st0, j, p, rfl, hne, hnb, by omega, hp,
      (loopInv_state_after _ dec st0 hinv j p hp).2, ?_⟩
    rcases hcase with ⟨h1, h2⟩ | ⟨h1, h2⟩
    · exact Or.inl ⟨by omega, h2⟩
    · exact Or.inr ⟨by omega, h2⟩

/-- Every completed decode ended by the break on END_OF_TRANSCRIPT, after at most 443
complete passes: within the bound of 444 iterations and 444 tokens. -/
theorem completed_decode_broke (language : String) (main : Option (List CFloat))
    (dec : Nat → Option (List CFloat)) (st : DecodeState)
    (h : whisper_decode language main dec = some st) :
    loop_bound language = 444 ∧ st.is_broke = true ∧
      st.loop_token_num ≤ 443 ∧ st.results.length ≤ 443 := by
  obtain ⟨st0, j, p, h0, _, _, _, hp, hinv, hcase⟩ :=
    whisper_decode_result language main dec st h
  obtain ⟨hinv0, _⟩ := first_step_inv language main dec st0 h0
  have hj := (loopInv_state_after _ dec st0 hinv0 j p hp).1
  obtain ⟨_, hlen, hnum, _⟩ := hinv
  rcases hcase with ⟨h1, _⟩ | ⟨_, _, h2⟩
  · omega
  · rw [h2]
    exact ⟨loop_bound_eq language, rfl, by simp only [hnum]; exact hj,
      by simp only [hlen]; exact hj⟩

/-- While no run fails and no selected token is END_OF_TRANSCRIPT, the passes up to
pass 443 complete. -/
theorem state_after_exists (t0 : Nat) (dec : Nat → Option (List CFloat)) (st0 : DecodeState)
    (h0 : LoopInv t0 dec 0 st0) (hdec : ∀ i, ∃ out, dec i = some out) :
    ∀ j, j ≤ 443 → (∀ n, n < j → selected_token t0 dec n ≠ some WHISPER_EOT) →
      ∃ s, state_after dec st0 j = some s := by
  intro j
  induction j with
  | zero => intro _ _; exact ⟨st0, rfl⟩
  | succ j ih =>
    intro hj hsel
    obtain ⟨p, hp⟩ := ih (by omega) (fun n hn => hsel n (by omega))
    obtain ⟨_, hinv⟩ := loopInv_state_after t0 dec st0 h0 j p hp
    have hne : p.max_token_id ≠ WHISPER_EOT := by
      intro hc
      apply hsel j (by omega)
      rw [hinv.2.2.2.2.2.1, hc]
    rcases loop_body_cases dec j p with
      ⟨heot, _⟩ | ⟨_, hnone, _⟩ | ⟨_, _, hstore, _⟩ | ⟨_, out, mask, _, _, hb⟩
    · exact absurd heot hne
    · obtain ⟨out, hout⟩ := hdec j
      rw [hout] at hnone; exact Option.noConfusion hnone
    · rw [hinv.2.2.2.2.2.2.2, hinv.1, mask_step j (by omega)] at hstore
      exact Option.noConfusion hstore
    · obtain ⟨q, hq⟩ : ∃ q, loop_body dec j p = LoopStep.next q := ⟨_, hb⟩
      exact ⟨q, by simp only [state_after, hp, hq]⟩

/-- C2: in every completed decode the emitted `results` never contains
END_OF_TRANSCRIPT (50257); `results` is exactly the selected tokens, in order, that
precede the first selected END_OF_TRANSCRIPT, the loop stops (with `is_broke`) as soon
as the selected token is END_OF_TRANSCRIPT without appending it, and the number of
`decoder_loop` runs equals the number of appended tokens, so the stage is not run
again after END_OF_TRANSCRIPT. -/
theorem results_stop_at_eot (language : String) (main : Option (List CFloat))
    (dec : Nat → Option (List CFloat)) (st : DecodeState)
    (h : whisper_decode language main dec = some st) :
    ∃ st0, first_step language main = some st0 ∧
      WHISPER_EOT ∉ st.results ∧
      st.loop_token_num = st.results.length ∧
      (∀ n, n < st.results.length →
        st.results[n]? = selected_token st0.max_token_id dec n ∧
        selected_token st0.max_token_id dec n ≠ some WHISPER_EOT) ∧
      (st.results.length < 444 →
        selected_token st0.max_token_id dec st.results.length = some WHISPER_EOT ∧
        st.is_broke = true) := by
  obtain ⟨st0, j, p, h0, _, _, hj, hp, hinv, hcase⟩ :=
    whisper_decode_result language main dec st h
  obtain ⟨hoff, hlen, hnum, hres, hne, hsel, hbrk, hmask⟩ := hinv
  have hr : st.results = p.results := by
    rcases hcase with ⟨_, h2⟩ | ⟨_, _, h2⟩ <;> rw [h2]
  have hn : st.loop_token_num = p.loop_token_num := by
    rcases hcase with ⟨_, h2⟩ | ⟨_, _, h2⟩ <;> rw [h2]
  refine ⟨st0, h0, ?_, ?_, ?_, ?_⟩
  · rw [hr]; exact fun hmem => hne _ hmem rfl
  · rw [hr, hn, hnum, hlen]
  · rw [hr, hlen]
    intro n hn'
    refine ⟨hres n hn', ?_⟩
    intro hc
    rw [← hres n hn'] at hc
    exact hne _ (List.mem_iff_getElem?.mpr ⟨n, hc⟩) rfl
  · rw [hr, hlen]
    intro hlt
    rcases hcase with ⟨h1, _⟩ | ⟨_, h2, h3⟩
    · omega
    · exact ⟨by rw [hsel, h2], by rw [h3]⟩

/-! ## A decode that never selects END_OF_TRANSCRIPT -/

theorem max_element_scan_keep (rest : List CFloat) :
    ∀ (largest : Nat) (lv : CFloat) (i : Nat), (∀ z ∈ rest, CFloat.lt lv z = false) →
      max_element_scan largest lv i rest = largest := by
  induction rest with
  | nil => intro largest lv i _; rfl
  | cons z zs ih =>
    intro largest lv i h
    have hz : CFloat.lt lv z = false := h z (by simp)
    simp only [max_element_scan, hz, Bool.false_eq_true, if_false]
    exact ih largest lv (i + 1) (fun w hw => h w (by simp [hw]))

theorem argmax_eq_zero (l : List CFloat) (a : CFloat) (h0 : l[0]? = some a)
    (hall : ∀ z ∈ l, CFloat.lt a z = false) : argmax l = 0 := by
  cases l with
  | nil => rfl
  | cons b rest =>
    have hb : b = a := by simpa using h0
    subst hb
    exact max_element_scan_keep rest 0 b 1 (fun z hz => hall z (by simp [hz]))

theorem argmax_zero_logits (b : Bool) : argmax (supress_tokens zero_logits b) = 0 := by
  have hpos : 0 < WHISPER_VOCAB_SIZE := by decide
  apply argmax_eq_zero _ (CFloat.fin 0)
  · rw [supress_tokens_getElem?, if_neg (zero_not_suppressed b)]
    simp [zero_logits, List.getElem?_replicate, hpos]
  · intro z hz
    obtain ⟨n, hn⟩ := List.mem_iff_getElem?.mp hz
    rw [supress_tokens_getElem?] at hn
    split at hn
    · split at hn
      · rw [← Option.some.inj hn]; rfl
      · exact Option.noConfusion hn
    · simp only [zero_logits, List.getElem?_replicate] at hn
      split at hn
      · rw [← Option.some.inj hn]; exact cfloat_lt_irrefl _
      · exact Option.noConfusion hn

theorem zero_decoder_never_eot (t0 : Nat) (ht0 : t0 ≠ WHISPER_EOT) (n : Nat) :
    selected_token t0 zero_decoder n ≠ some WHISPER_EOT := by
  cases n with
  | zero => simpa [selected_token] using ht0
  | succ n =>
    simp only [selected_token, zero_decoder, Option.map_some', argmax_zero_logits]
    simp [WHISPER_EOT]

theorem eot_logits_getElem? (j : Nat) :
    (supress_tokens eot_logits false)[j]? =
      if j ∈ suppressed_ids false then (if j < WHISPER_VOCAB_SIZE then some NEG_INF else none)
      else if j = WHISPER_EOT then some (CFloat.fin 1)
      else if j < WHISPER_VOCAB_SIZE then some (CFloat.fin 0) else none := by
  have hV : WHISPER_EOT < WHISPER_VOCAB_SIZE := by decide
  rw [supress_tokens_getElem?]
  simp only [eot_logits, zero_logits, List.length_set, List.length_replicate,
    List.getElem?_set, List.getElem?_replicate, hV, if_true]
  by_cases h1 : j ∈ suppressed_ids false
  · simp only [h1, if_true]
  · simp only [h1, if_false]
    by_cases h2 : j = WHISPER_EOT
    · subst h2; simp only [if_true]
    · rw [if_neg (fun h => h2 h.symm), if_neg h2]

theorem argmax_eot_logits : argmax (supress_tokens eot_logits false) = WHISPER_EOT := by
  have hV : WHISPER_EOT < WHISPER_VOCAB_SIZE := by decide
  have hns : WHISPER_EOT ∉ suppressed_ids false := by decide
  have hentry : ∀ j x, (supress_tokens eot_logits false)[j]? = some x →
      x = NEG_INF ∨ (x = CFloat.fin 1 ∧ j = WHISPER_EOT) ∨ x = CFloat.fin 0 := by
    intro j x hx
    rw [eot_logits_getElem?] at hx
    split_ifs at hx with h1 h2 h3 h4
    · left; exact (Option.some.inj hx).symm
    · right; left; exact ⟨(Option.some.inj hx).symm, h3⟩
    · right; right; exact (Option.some.inj hx).symm
  have hone : (supress_tokens eot_logits false)[WHISPER_EOT]? = some (CFloat.fin 1) := by
    rw [eot_logits_getElem?, if_neg hns, if_pos rfl]
  have hne : supress_tokens eot_logits false ≠ [] := by
    intro h; rw [h] at hone; exact Option.noConfusion hone
  have hnan : ∀ x ∈ supress_tokens eot_logits false, x ≠ CFloat.nan := by
    intro x hx
    obtain ⟨j, hj⟩ := List.mem_iff_getElem?.mp hx
    rcases hentry j x hj with h | ⟨h, _⟩ | h <;> rw [h] <;> simp [NEG_INF]
  obtain ⟨m, hm, hmax, _⟩ := isFirstMaximum_argmax _ hne hnan
  have hle := hmax _ (List.mem_iff_getElem?.mpr ⟨_, hone⟩)
  rcases hentry _ m hm with h | ⟨_, h⟩ | h
  · rw [h] at hle; simp [NEG_INF, CFloat.le] at hle
  · exact h
  · rw [h] at hle
    simp only [CFloat.le, decide_eq_true_eq] at hle
    exact absurd hle (by norm_num)


/-- On all-zero logits the first 443 passes complete, and pass 444 (loop counter 443)
runs `decoder_loop`, raises the offset from 447 to 448 and stores to the mask at
index -1: the decode does not return a state although no run fails. -/
theorem zero_decode_pass_444 :
    ∃ st0 p, first_step "zh" (some zero_main_logits) = some st0 ∧
      (∀ n, selected_token st0.max_token_id zero_decoder n ≠ some WHISPER_EOT) ∧
      state_after zero_decoder st0 443 = some p ∧
      LoopInv st0.max_token_id zero_decoder 443 p ∧
      p.max_token_id ≠ WHISPER_EOT ∧
      vec_store p.mask (mask_index (p.offset + 1)) (CFloat.fin 0) = none ∧
      loop_body zero_decoder 443 p = LoopStep.oob ∧
      whisper_decode "zh" (some zero_main_logits) zero_decoder = none := by
  obtain ⟨st0, h0⟩ : ∃ st0, first_step "zh" (some zero_main_logits) = some st0 :=
    ⟨_, first_step_eq "zh" zero_main_logits⟩
  obtain ⟨hinv0, hne, _⟩ := first_step_inv "zh" (some zero_main_logits) zero_decoder st0 h0
  have hsel := fun n => zero_decoder_never_eot st0.max_token_id hne n
  obtain ⟨p, hp⟩ := state_after_exists st0.max_token_id zero_decoder st0 hinv0
    (fun _ => ⟨zero_logits, rfl⟩) 443 (le_refl _) (fun n _ => hsel n)
  obtain ⟨_, hinv⟩ := loopInv_state_after st0.max_token_id zero_decoder st0 hinv0 443 p hp
  have hpne : p.max_token_id ≠ WHISPER_EOT := by
    intro hc
    apply hsel 443
    rw [hinv.2.2.2.2.2.1, hc]
  have hstore : vec_store p.mask (mask_index (p.offset + 1)) (CFloat.fin 0) = none := by
    rw [hinv.1]
    exact mask_step_oob 443 (le_refl _) p.mask
  have hb : loop_body zero_decoder 443 p = LoopStep.oob := by
    rcases loop_body_cases zero_decoder 443 p with
      ⟨heot, _⟩ | ⟨_, hnone, _⟩ | ⟨_, _, _, hb⟩ | ⟨_, out, mask, _, hsome, _⟩
    · exact absurd heot hpne
    · exact Option.noConfusion hnone
    · exact hb
    · rw [hstore] at hsome; exact Option.noConfusion hsome
  refine ⟨st0, p, h0, hsel, hp, hinv, hpne, hstore, hb, ?_⟩
  rw [whisper_decode_eq "zh" (some zero_main_logits) zero_decoder st0 h0]
  have e444 : (444 : Nat) = 443 + 1 := rfl
  rw [e444, decode_loop_skip_start zero_decoder st0 1 443 p hp]
  simp only [decode_loop, hb]

/-- On `eot_logits` the decode completes: the first pass appends the first token and
the second pass breaks on END_OF_TRANSCRIPT. -/
theorem eot_decode_completes :
    ∃ st, whisper_decode "zh" (some zero_main_logits) eot_decoder = some st := by
  obtain ⟨st0, h0⟩ : ∃ st0, first_step "zh" (some zero_main_logits) = some st0 :=
    ⟨_, first_step_eq "zh" zero_main_logits⟩
  obtain ⟨hinv0, hne, _⟩ := first_step_inv "zh" (some zero_main_logits) eot_decoder st0 h0
  obtain ⟨p, hp⟩ := state_after_exists st0.max_token_id eot_decoder st0 hinv0
    (fun _ => ⟨eot_logits, rfl⟩) 1 (by omega) (fun n hn => by
      have : n = 0 := by omega
      subst this
      simpa [selected_token] using hne)
  obtain ⟨_, hinv⟩ := loopInv_state_after st0.max_token_id eot_decoder st0 hinv0 1 p hp
  have hsel1 : selected_token st0.max_token_id eot_decoder 1 = some WHISPER_EOT := by
    simp only [selected_token, eot_decoder, Option.map_some', argmax_eot_logits]
  have hpe : p.max_token_id = WHISPER_EOT := by
    have h := hinv.2.2.2.2.2.1
    rw [hsel1] at h
    exact (Option.some.inj h).symm
  have hb : loop_body eot_decoder 1 p = LoopStep.brk { p with is_broke := true } := by
    rcases loop_body_cases eot_decoder 1 p with
      ⟨_, hb⟩ | ⟨hc, _⟩ | ⟨hc, _⟩ | ⟨hc, _⟩
    · exact hb
    · exact absurd hpe hc
    · exact absurd hpe hc
    · exact absurd hpe hc
  refine ⟨{ p with is_broke := true }, ?_⟩
  rw [whisper_decode_eq "zh" (some zero_main_logits) eot_decoder st0 h0]
  have e444 : (444 : Nat) = 1 + (442 + 1) := rfl
  rw [e444, decode_loop_skip_start eot_decoder st0 (442 + 1) 1 p hp]
  simp only [decode_loop, hb]

theorem results_stop_at_eot_witness :
    ∃ st, whisper_decode "zh" (some zero_main_logits) eot_decoder = some st ∧
      WHISPER_EOT ∉ st.results ∧ st.results.length = 1 ∧ st.loop_token_num = 1 ∧
      st.is_broke = true := by
  obtain ⟨st, h⟩ := eot_decode_completes
  obtain ⟨st0, h0, hnot, hnum, hsel, hstop⟩ :=
    results_stop_at_eot "zh" (some zero_main_logits) eot_decoder st h
  obtain ⟨_, hne, _⟩ := first_step_inv "zh" (some zero_main_logits) eot_decoder st0 h0
  have hnext : ∀ n, selected_token st0.max_token_id eot_decoder (n + 1) = some WHISPER_EOT := by
    intro n
    simp only [selected_token, eot_decoder, Option.map_some', argmax_eot_logits]
  have hlen : st.results.length = 1 := by
    by_contra hc
    by_cases h2 : 2 ≤ st.results.length
    · exact (hsel 1 (by omega)).2 (hnext 0)
    · have h0' : st.results.length = 0 := by omega
      have := (hstop (by omega)).1
      rw [h0'] at this
      simp only [selected_token, Option.some.injEq] at this
      exact hne this
  exact ⟨st, h, hnot, hlen, by rw [hnum, hlen], (hstop (by omega)).2⟩

/-- C9: on a logits vector of vocabulary size, with any values and either flag, every
index `supress_tokens` stores to holds negative infinity afterwards and `argmax` of the
result is none of them; the first step takes its arg-max on such a vector and the token
it selects is never END_OF_TRANSCRIPT or BLANK, and every completed decode emits at least one token. -/
theorem argmax_never_suppressed (logits : List CFloat)
    (hlen : logits.length = WHISPER_VOCAB_SIZE) (is_initial : Bool)
    (language : String) (decoder_main_logits : List CFloat)
    (hmain : decoder_main_logits.length = 4 * WHISPER_VOCAB_SIZE)
    (dec : Nat → Option (List CFloat)) :
    (∀ s ∈ suppressed_ids is_initial,
      (supress_tokens logits is_initial)[s]? = some NEG_INF) ∧
    argmax (supress_tokens logits is_initial) ∉ suppressed_ids is_initial ∧
    (∃ st0, first_step language (some decoder_main_logits) = some st0 ∧
      st0.logits.length = WHISPER_VOCAB_SIZE ∧
      st0.max_token_id ≠ WHISPER_EOT ∧ st0.max_token_id ≠ WHISPER_BLANK) ∧
    (∀ st, whisper_decode language (some decoder_main_logits) dec = some st →
      1 ≤ st.results.length) := by
  refine ⟨?_, argmax_not_suppressed logits is_initial, ?_, ?_⟩
  · intro s hs
    rw [supress_tokens_getElem?, if_pos hs, if_pos]
    rw [hlen]
    cases is_initial <;>
      simp only [suppressed_ids, WHISPER_NO_TIMESTAMPS, WHISPER_SOT, WHISPER_NO_SPEECH,
        WHISPER_TRANSLATE, WHISPER_EOT, WHISPER_BLANK, if_true, Bool.false_eq_true, if_false,
        List.cons_append, List.nil_append, List.mem_cons, List.mem_singleton,
        List.mem_nil_iff, or_false, WHISPER_VOCAB_SIZE] at hs ⊢ <;> omega
  · refine ⟨_, first_step_eq language decoder_main_logits, ?_, argmax_initial_ne_eot _⟩
    simp only [supress_tokens_length, std_copy, List.length_append, List.length_drop,
      List.length_replicate, hmain]
    omega
  · intro st h
    obtain ⟨st0, j, p, h0, hne, _, hj, hp, hinv, hcase⟩ :=
      whisper_decode_result language (some decoder_main_logits) dec st h
    have hr : st.results = p.results := by
      rcases hcase with ⟨_, h2⟩ | ⟨_, _, h2⟩ <;> rw [h2]
    rw [hr, hinv.2.1]
    rcases hcase with ⟨h1, _⟩ | ⟨_, h2, _⟩
    · omega
    · cases j with
      | zero =>
        exfalso
        have : st0 = p := by simpa [state_after] using hp
        subst this
        exact hne h2
      | succ j => omega

theorem argmax_never_suppressed_witness :
    argmax (supress_tokens zero_logits true) ∉ suppressed_ids true ∧
    ∃ st, whisper_decode "zh" (some zero_main_logits) eot_decoder = some st ∧
      1 ≤ st.results.length := by
  have h := argmax_never_suppressed zero_logits (List.length_replicate _ _) true "zh"
    zero_main_logits (List.length_replicate _ _) eot_decoder
  obtain ⟨st, hst⟩ := eot_decode_completes
  exact ⟨h.2.1, st, hst, h.2.2.2 st hst⟩

/-! ## The mask along the loop -/

theorem maskAtOffset_of_mask_with (j : Nat) (hj : j ≤ 443) :
    MaskAtOffset (mask_with (443 - j)) (4 + j) := by
  refine ⟨mask_with_length _ (by omega), ?_⟩
  have h1 : WHISPER_N_TEXT_CTX - (4 + j + 1) = 443 - j := by
    simp only [WHISPER_N_TEXT_CTX]; omega
  have h2 : WHISPER_N_TEXT_CTX - (443 - j) = 4 + j + 1 := by
    simp only [WHISPER_N_TEXT_CTX]; omega
  rw [mask_with, h1, h2]

/-- Up to pass 443 the claim of C1 holds: the initial mask (`j = 0`, offset 4) and the
mask after each of the passes `j = 1 .. 443` have exactly their last `offset + 1`
entries 0 and the earlier ones negative infinity, and the index stored to in pass `j`
is `443 - j`, inside the mask. -/
theorem mask_invariant_before_cap (language : String) (main : Option (List CFloat))
    (dec : Nat → Option (List CFloat)) (st0 s : DecodeState) (j : Nat)
    (h0 : first_step language main = some st0) (hj : j ≤ 443)
    (hs : state_after dec st0 j = some s) :
    s.offset = 4 + (j : Int) ∧ MaskAtOffset s.mask (4 + j) ∧
      mask_index s.offset = 443 - (j : Int) := by
  obtain ⟨hinv, _⟩ := first_step_inv language main dec st0 h0
  obtain ⟨hoff, _, _, _, _, _, _, hmask⟩ := (loopInv_state_after _ dec st0 hinv j s hs).2
  refine ⟨hoff, ?_, ?_⟩
  · rw [hmask]; exact maskAtOffset_of_mask_with j hj
  · rw [hoff]; simp only [mask_index, WHISPER_N_TEXT_CTX]; omega

/-- C3 at the failing input: the loop header allows 444 iterations, and on the decode
whose stages return all-zero logits no run fails and no selected token is
END_OF_TRANSCRIPT, so the loop heads for the cap with 443 tokens after 443 passes;
pass 444 then stores to `mask[-1]`, outside the mask, and the decode does not end
normally with a state. -/
theorem decode_cap_not_reached_normally :
    loop_bound "zh" = 444 ∧ (∀ i, ∃ out, zero_decoder i = some out) ∧
    ∃ st0 p, first_step "zh" (some zero_main_logits) = some st0 ∧
      (∀ n, selected_token st0.max_token_id zero_decoder n ≠ some WHISPER_EOT) ∧
      state_after zero_decoder st0 443 = some p ∧
      p.results.length = 443 ∧ p.loop_token_num = 443 ∧
      loop_body zero_decoder 443 p = LoopStep.oob ∧
      whisper_decode "zh" (some zero_main_logits) zero_decoder = none := by
  obtain ⟨st0, p, h0, hsel, hp, hinv, _, _, hb, hnone⟩ := zero_decode_pass_444
  exact ⟨loop_bound_eq "zh", fun _ => ⟨zero_logits, rfl⟩, st0, p, h0, hsel, hp,
    hinv.2.1, hinv.2.2.1, hb, hnone⟩

/-! ## `detect_language` -/

set_option maxRecDepth 100000 in
/-- Every one of the 99 language codes is mapped to the id at its own table position. -/
theorem detect_language_table :
    ∀ n, n < 99 →
      detect_language (WHISPER_LANG_NAMES.getD n "") = WHISPER_LANG_CODES.getD n 0 := by
  decide

theorem lang_tables_length :
    WHISPER_LANG_CODES.length = 99 ∧ WHISPER_LANG_NAMES.length = 99 := by
  constructor <;> rfl

/-- The loop ends on 51 or on an index it visited. -/
theorem detect_language_loop_range (s : String) :
    ∀ k n, detect_language_loop s k n = 51 ∨
      (n ≤ detect_language_loop s k n ∧ detect_language_loop s k n < n + k) := by
  intro k
  induction k with
  | zero => intro n; left; rfl
  | succ k ih =>
    intro n
    simp only [detect_language_loop]
    split
    · right; omega
    · rcases ih (n + 1) with h | h
      · left; exact h
      · right; omega

/-- Without a match among the visited entries the loop leaves `i = 51`. -/
theorem detect_language_loop_fallback (s : String) :
    ∀ k n, (∀ m, n ≤ m → m < n + k → WHISPER_LANG_NAMES.getD m "" ≠ s) →
      detect_language_loop s k n = 51 := by
  intro k
  induction k with
  | zero => intro n _; rfl
  | succ k ih =>
    intro n h
    simp only [detect_language_loop]
    rw [if_neg (fun he => h n (le_refl _) (by omega) he.symm)]
    exact ih (n + 1) (fun m h1 h2 => h m (by omega) (by omega))

theorem detect_language_fallback (s : String) (hs : s ∉ WHISPER_LANG_NAMES) :
    detect_language s = 50260 := by
  have h : detect_language_index s = 51 := by
    apply detect_language_loop_fallback
    intro m _ hm he
    apply hs
    rw [← he, List.getD_eq_getElem _ _ (by rw [lang_tables_length.2]; rw [lang_tables_length.1] at hm; omega)]
    exact List.getElem_mem _
  rw [detect_language, h]
  rfl

/-- C6: for every language string `s`, `detect_language s` is the vocabulary id at the
table position of `s` when `s` is one of the 99 language codes, and otherwise the
fallback id at table index 51, which is the id of "zh", 50260; so
`detect_language "xx" = detect_language "zh"`; the table access is always in bounds,
so no input produces an error. -/
theorem detect_language_spec (s : String) :
    (∀ n, n < 99 → WHISPER_LANG_NAMES[n]? = some s →
      WHISPER_LANG_CODES[n]? = some (detect_language s)) ∧
    (s ∉ WHISPER_LANG_NAMES → detect_language s = 50260) ∧
    WHISPER_LANG_NAMES[51]? = some "zh" ∧ WHISPER_LANG_CODES[51]? = some 50260 ∧
    detect_language "zh" = 50260 ∧ detect_language "xx" = detect_language "zh" ∧
    WHISPER_LANG_CODES[detect_language_index s]? = some (detect_language s) := by
  have hzh : detect_language "zh" = 50260 := detect_language_table 51 (by omega)
  have hxx : detect_language "xx" = 50260 := detect_language_fallback "xx" (by decide)
  refine ⟨?_, detect_language_fallback s, rfl, rfl, hzh, by rw [hxx, hzh], ?_⟩
  · intro n hn hs
    have hlen : n < WHISPER_LANG_CODES.length := by rw [lang_tables_length.1]; exact hn
    have hnm : WHISPER_LANG_NAMES.getD n "" = s := by
      rw [List.getD_eq_getElem?_getD, hs]; rfl
    rw [← hnm, detect_language_table n hn, List.getD_eq_getElem _ _ hlen]
    exact List.getElem?_eq_getElem hlen
  · have hlt : detect_language_index s < WHISPER_LANG_CODES.length := by
      rw [lang_tables_length.1]
      rcases detect_language_loop_range s WHISPER_LANG_CODES.length 0 with h | h
      · rw [detect_language_index, h]; omega
      · rw [lang_tables_length.1] at h; rw [detect_language_index, lang_tables_length.1]; omega
    rw [detect_language, List.getD_eq_getElem _ _ hlt]
    exact List.getElem?_eq_getElem hlt

theorem detect_language_spec_witness :
    WHISPER_LANG_CODES[67]? = some (detect_language "en") ∧ detect_language "xx" = 50260 :=
  ⟨(detect_language_spec "en").1 67 (by omega) rfl, (detect_language_spec "xx").2.1 (by decide)⟩

/-! ## The mel pass -/

theorem forLoop_preserves {σ : Type} (P : σ → Prop) (body : Nat → σ → σ)
    (hbody : ∀ n s, P s → P (body n s)) : ∀ k s, P s → P (forLoop body k s) := by
  intro k
  induction k with
  | zero => intro s hs; exact hs
  | succ k ih => intro s hs; exact hbody k _ (ih s hs)

theorem forLoop_zero_iterations {σ : Type} (body : Nat → σ → σ) (s : σ) :
    forLoop body 0 s = s := rfl

theorem forLoop_eq_self {σ : Type} (body : Nat → σ → σ) (s : σ)
    (h : ∀ n, body n s = s) : ∀ k, forLoop body k s = s := by
  intro k
  induction k with
  | zero => rfl
  | succ k ih => simp only [forLoop, ih, h]

theorem resize_length (v : List CFloat) (k : Nat) : (resize v k).length = k := by
  simp only [resize, List.length_append, List.length_take, List.length_replicate]
  omega

theorem getD_set_self (mel : List (List CFloat)) (i : Nat) (r : List CFloat)
    (h : i < mel.length) : (mel.set i r).getD i [] = r := by
  rw [List.getD_eq_getElem?_getD, List.getElem?_set]
  simp [h]

theorem set_getD_self (mel : List (List CFloat)) (i : Nat) (h : i < mel.length) :
    mel.set i (mel.getD i []) = mel := by
  apply List.ext_getElem?
  intro n
  rw [List.getElem?_set]
  split_ifs with h1
  · subst h1
    rw [List.getD_eq_getElem _ _ h, List.getElem?_eq_getElem h]
  · rfl

theorem norm_cell_row (mmax : CFloat) (i n : Nat) (mel : List (List CFloat))
    (h : i < mel.length) :
    norm_cell mmax i n mel = mel.set i (norm_row_step mmax n (mel.getD i [])) := by
  simp only [norm_cell, mat_store, mat_load, norm_row_step]
  rw [getD_set_self _ _ _ h, List.set_set]

theorem log_cell_row (log10 : CFloat → CFloat) (i n : Nat) (s : List (List CFloat) × CFloat)
    (h : i < s.1.length) :
    log_cell log10 i n s =
      (s.1.set i (log_row_step log10 n (s.1.getD i [], s.2)).1,
        (log_row_step log10 n (s.1.getD i [], s.2)).2) := by
  simp only [log_cell, mat_store, mat_load, log_row_step]
  rw [getD_set_self _ _ _ h]

/-- An inner loop that only rewrites row `i` is a loop on that row. -/
theorem forLoop_row (i : Nat) (body : Nat → List (List CFloat) → List (List CFloat))
    (g : Nat → List CFloat → List CFloat)
    (hbody : ∀ n (m : List (List CFloat)), i < m.length →
      body n m = m.set i (g n (m.getD i []))) :
    ∀ k (mel : List (List CFloat)), i < mel.length →
      forLoop body k mel = mel.set i (forLoop g k (mel.getD i [])) := by
  intro k
  induction k with
  | zero => intro mel h; simp only [forLoop]; exact (set_getD_self mel i h).symm
  | succ k ih =>
    intro mel h
    simp only [forLoop]
    rw [ih mel h, hbody k _ (by rw [List.length_set]; exact h), getD_set_self _ _ _ h,
      List.set_set]

/-- The same for a loop on the pair of the spectrogram and `mmax`. -/
theorem forLoop_row_pair (i : Nat)
    (body : Nat → List (List CFloat) × CFloat → List (List CFloat) × CFloat)
    (g : Nat → List CFloat × CFloat → List CFloat × CFloat)
    (hbody : ∀ n (s : List (List CFloat) × CFloat), i < s.1.length →
      body n s = (s.1.set i (g n (s.1.getD i [], s.2)).1, (g n (s.1.getD i [], s.2)).2)) :
    ∀ k (s : List (List CFloat) × CFloat), i < s.1.length →
      forLoop body k s =
        (s.1.set i (forLoop g k (s.1.getD i [], s.2)).1,
          (forLoop g k (s.1.getD i [], s.2)).2) := by
  intro k
  induction k with
  | zero =>
    intro s h
    simp only [forLoop]
    rw [set_getD_self s.1 i h]
  | succ k ih =>
    intro s h
    simp only [forLoop]
    rw [ih s h, hbody k _ (by simp only [List.length_set]; exact h)]
    simp only [getD_set_self _ _ _ h, List.set_set]

/-- An outer loop whose pass `i` rewrites row `i` by `h i` acts row by row. -/
theorem forLoop_rows (F : Nat → List (List CFloat) → List (List CFloat))
    (h : Nat → List CFloat → List CFloat)
    (hF : ∀ i (m : List (List CFloat)), i < m.length → F i m = m.set i (h i (m.getD i []))) :
    ∀ k (mel : List (List CFloat)), k ≤ mel.length →
      (forLoop F k mel).length = mel.length ∧
      ∀ j, (forLoop F k mel)[j]? = if j < k then (mel[j]?).map (h j) else mel[j]? := by
  intro k
  induction k with
  | zero => intro mel _; exact ⟨rfl, fun j => by simp [forLoop]⟩
  | succ k ih =>
    intro mel hk
    obtain ⟨hlen, hrows⟩ := ih mel (by omega)
    have hk' : k < (forLoop F k mel).length := by rw [hlen]; omega
    simp only [forLoop]
    rw [hF k _ hk']
    refine ⟨by rw [List.length_set, hlen], ?_⟩
    intro j
    rw [List.getElem?_set]
    by_cases hj : k = j
    · subst hj
      rw [if_pos rfl, if_pos hk', if_pos (by omega)]
      have hget : (forLoop F k mel).getD k [] = mel.getD k [] := by
        rw [List.getD_eq_getElem?_getD, List.getD_eq_getElem?_getD, hrows k, if_neg (by omega)]
      rw [hget, List.getElem?_eq_getElem (by omega : k < mel.length),
        List.getD_eq_getElem _ _ (by omega : k < mel.length)]
      rfl
    · rw [if_neg hj, hrows j]
      by_cases hjk : j < k
      · rw [if_pos hjk, if_pos (by omega)]
      · rw [if_neg hjk, if_neg (by omega)]

theorem log_pass_length (log10 : CFloat → CFloat) (n_len : Nat) (mel : List (List CFloat)) :
    (log_pass log10 n_len mel).1.length = mel.length := by
  unfold log_pass
  exact forLoop_preserves (fun s : List (List CFloat) × CFloat => s.1.length = mel.length) _
    (fun i s hs =>
      forLoop_preserves (fun s : List (List CFloat) × CFloat => s.1.length = mel.length) _
        (fun n t ht => by
          simp only [log_cell, mat_store, List.length_set]
          exact ht) n_len s hs)
    WHISPER_N_MELS _ rfl

/-- The second loop acts row by row on a spectrogram of 80 rows. -/
theorem norm_pass_rows (mmax : CFloat) (n_len : Nat) (mel : List (List CFloat))
    (hrows : mel.length = WHISPER_N_MELS) :
    (norm_pass mmax n_len mel).length = mel.length ∧
    ∀ j, (norm_pass mmax n_len mel)[j]? =
      if j < WHISPER_N_MELS then (mel[j]?).map (forLoop (norm_row_step mmax) n_len)
      else mel[j]? := by
  apply forLoop_rows _ (fun _ => forLoop (norm_row_step mmax) n_len)
  · intro i m hi
    exact forLoop_row i _ (norm_row_step mmax)
      (fun n m' hm' => norm_cell_row mmax i n m' hm') n_len m hi
  · omega

theorem norm_row_loop_length (mmax : CFloat) (k : Nat) (r : List CFloat) (hk : 1 ≤ k) :
    (forLoop (norm_row_step mmax) k r).length = 3000 := by
  cases k with
  | zero => omega
  | succ k => simp only [forLoop, norm_row_step]; exact resize_length _ _

theorem memcpy_length (dst : List CFloat) (off : Nat) (src : List CFloat) (cnt : Nat) :
    (memcpy dst off src cnt).length = dst.length := by
  unfold memcpy
  exact forLoop_preserves (fun d : List CFloat => d.length = dst.length) _
    (fun n d hd => by simp only [List.length_set]; exact hd) cnt dst rfl

theorem continous_mel_length (n_mel : Nat) (mel : List (List CFloat)) :
    (continous_mel n_mel mel).length = WHISPER_N_MELS * (mel.getD 0 []).length := by
  simp only [continous_mel]
  have h := forLoop_preserves
    (fun buf : List CFloat => buf.length = WHISPER_N_MELS * (mel.getD 0 []).length)
    (fun i buf => memcpy buf (i * (mel.getD 0 []).length) (mel.getD i []) (mel.getD 0 []).length)
    (fun n d hd => by simp only [memcpy_length]; exact hd) n_mel
    (List.replicate (WHISPER_N_MELS * (mel.getD 0 []).length) (CFloat.fin 0))
    (List.length_replicate _ _)
  exact h

/-- For a frame count from 1 to 3000 the claim of C7 holds: a spectrogram of 80 rows
leaves the two loops with 80 rows of exactly 3000 columns, and `continous_mel` holds
`80 * 3000` values.  Above 3000 frames the second loop indexes cells beyond the
resized row, which is outside this statement. -/
theorem mel_rows_resized (log10 : CFloat → CFloat) (mel : List (List CFloat)) (n_len : Nat)
    (hrows : mel.length = WHISPER_N_MELS) (hcols : ∀ r ∈ mel, r.length = n_len)
    (hpos : 1 ≤ n_len) (_hmax : n_len ≤ 3000) :
    (normalize_mel log10 mel).length = WHISPER_N_MELS ∧
    (∀ r ∈ normalize_mel log10 mel, r.length = 3000) ∧
    (encoder_input log10 mel).length = WHISPER_N_MELS * 3000 := by
  have h80 : 0 < WHISPER_N_MELS := by decide
  have hn : (mel.getD 0 []).length = n_len := by
    apply hcols
    rw [List.getD_eq_getElem _ _ (by omega : 0 < mel.length)]
    exact List.getElem_mem _
  have hlog : (log_pass log10 n_len mel).1.length = WHISPER_N_MELS := by
    rw [log_pass_length, hrows]
  obtain ⟨hlen, hget⟩ := norm_pass_rows (log_pass log10 n_len mel).2 n_len _ hlog
  have hall : ∀ r ∈ normalize_mel log10 mel, r.length = 3000 := by
    intro r hr
    simp only [normalize_mel, hn] at hr
    obtain ⟨j, hj⟩ := List.mem_iff_getElem?.mp hr
    rw [hget j] at hj
    have hjlt : j < WHISPER_N_MELS := by
      by_contra hc
      rw [if_neg hc] at hj
      have := (List.getElem?_eq_some.mp hj).1
      omega
    rw [if_pos hjlt] at hj
    obtain ⟨r0, _, hr0⟩ := Option.map_eq_some'.mp hj
    rw [← hr0]
    exact norm_row_loop_length _ _ _ hpos
  have hlen' : (normalize_mel log10 mel).length = WHISPER_N_MELS := by
    simp only [normalize_mel, hn]; rw [hlen, hlog]
  refine ⟨hlen', hall, ?_⟩
  rw [encoder_input, continous_mel_length]
  congr 1
  apply hall
  rw [List.getD_eq_getElem _ _ (by omega : 0 < (normalize_mel log10 mel).length)]
  exact List.getElem_mem _

theorem mel_rows_resized_witness :
    (encoder_input (fun x => x) (List.replicate WHISPER_N_MELS [CFloat.fin 1])).length =
      WHISPER_N_MELS * 3000 :=
  (mel_rows_resized (fun x => x) (List.replicate WHISPER_N_MELS [CFloat.fin 1]) 1
    (List.length_replicate _ _)
    (fun r hr => by rw [List.eq_of_mem_replicate hr]; rfl) (le_refl 1) (by omega)).2.2

/-- C7 at the failing input: on a spectrogram of 80 rows and zero frames neither loop
body runs, `resize` is never called, every row keeps 0 columns and the buffer handed
to the encoder is empty instead of holding `80 * 3000` values. -/
theorem mel_rows_not_resized_without_frames (log10 : CFloat → CFloat) :
    normalize_mel log10 (List.replicate WHISPER_N_MELS []) = List.replicate WHISPER_N_MELS [] ∧
    (∀ r ∈ normalize_mel log10 (List.replicate WHISPER_N_MELS []), r.length = 0) ∧
    (encoder_input log10 (List.replicate WHISPER_N_MELS [])).length = 0 := by
  have h80 : 0 < WHISPER_N_MELS := by decide
  have h0 : ((List.replicate WHISPER_N_MELS ([] : List CFloat)).getD 0 []).length = 0 := by
    rw [List.getD_eq_getElem?_getD, List.getElem?_replicate, if_pos h80]; rfl
  have hnorm : normalize_mel log10 (List.replicate WHISPER_N_MELS []) =
      List.replicate WHISPER_N_MELS [] := by
    simp only [normalize_mel, h0, log_pass, norm_pass, forLoop_zero_iterations]
    rw [forLoop_eq_self _ _ (fun _ => rfl), forLoop_eq_self _ _ (fun _ => rfl)]
  refine ⟨hnorm, ?_, ?_⟩
  · intro r hr
    rw [hnorm] at hr
    rw [List.eq_of_mem_replicate hr]; rfl
  · rw [encoder_input, continous_mel_length, hnorm, h0, Nat.mul_zero]

/-! ## The mel pass on a silent spectrogram -/

theorem two_block_set {α : Type} (a b : α) (k n : Nat) (h : k < n) :
    (List.replicate k a ++ List.replicate (n - k) b).set k a =
      List.replicate (k + 1) a ++ List.replicate (n - (k + 1)) b := by
  apply List.ext_getElem?
  intro j
  simp only [List.getElem?_set, List.getElem?_append, List.getElem?_replicate,
    List.length_append, List.length_replicate]
  split_ifs <;> first | rfl | omega

theorem two_block_getElem? {α : Type} (a b : α) (k n : Nat) (h : k < n) :
    (List.replicate k a ++ List.replicate (n - k) b)[k]? = some b := by
  simp only [List.getElem?_append, List.getElem?_replicate, List.length_replicate]
  split_ifs <;> first | rfl | omega

theorem fmax_zero_floor : CFloat.fmax (CFloat.fin 0) (CFloat.fin (1 / 10 ^ 10)) =
    CFloat.fin (1 / 10 ^ 10) := by
  have h : CFloat.lt (CFloat.fin 0) (CFloat.fin (1 / 10 ^ 10)) = true := by
    simp only [CFloat.lt, decide_eq_true_eq]; norm_num
  simp only [CFloat.fmax, h, if_true]

/-- The first loop on one silent row: after `k` cells the first `k` hold the logarithm
`L` of the floor `1e-10`, and `mmax` is `L` as soon as one cell is done. -/
theorem log_row_silent (log10 : CFloat → CFloat) (L : ℚ)
    (hlog : log10 (CFloat.fin (1 / 10 ^ 10)) = CFloat.fin L) (n : Nat) (m : CFloat)
    (hm : CFloat.lt m (CFloat.fin L) = true ∨ m = CFloat.fin L) :
    ∀ k, k ≤ n →
      forLoop (log_row_step log10) k (List.replicate n (CFloat.fin 0), m) =
        (List.replicate k (CFloat.fin L) ++ List.replicate (n - k) (CFloat.fin 0),
          if k = 0 then m else CFloat.fin L) := by
  intro k
  induction k with
  | zero => intro _; simp [forLoop]
  | succ k ih =>
    intro hk
    simp only [forLoop]
    rw [ih (by omega)]
    have hget : (List.replicate k (CFloat.fin L) ++
        List.replicate (n - k) (CFloat.fin 0)).getD k (CFloat.fin 0) = CFloat.fin 0 := by
      rw [List.getD_eq_getElem?_getD, two_block_getElem? _ _ k n (by omega)]; rfl
    have hget2 : (List.replicate (k + 1) (CFloat.fin L) ++
        List.replicate (n - (k + 1)) (CFloat.fin 0)).getD k (CFloat.fin 0) = CFloat.fin L := by
      rw [List.getD_eq_getElem?_getD, List.getElem?_append_left (by simp),
        List.getElem?_replicate, if_pos (by omega)]; rfl
    have hm2 : (if CFloat.lt (if k = 0 then m else CFloat.fin L) (CFloat.fin L) = true
        then CFloat.fin L else (if k = 0 then m else CFloat.fin L)) = CFloat.fin L := by
      by_cases hk0 : k = 0
      · rw [if_pos hk0]
        rcases hm with h | h
        · rw [if_pos h]
        · rw [h, cfloat_lt_irrefl]; rfl
      · rw [if_neg hk0, cfloat_lt_irrefl]; rfl
    simp only [log_row_step, hget, fmax_zero_floor, hlog, two_block_set _ _ k n (by omega),
      hget2, hm2]
    rw [if_neg (Nat.succ_ne_zero k)]

theorem norm_value (L : ℚ) :
    CFloat.divQ (CFloat.addQ (CFloat.fmax (CFloat.fin L)
      (CFloat.addQ (CFloat.fin L) (-8))) 4) 4 = CFloat.fin ((L + 4) / 4) := by
  have h1 : CFloat.addQ (CFloat.fin L) (-8) = CFloat.fin (L + -8) := rfl
  have h : CFloat.lt (CFloat.fin L) (CFloat.fin (L + -8)) = false := by
    simp only [CFloat.lt, decide_eq_false_iff_not]; linarith
  rw [h1, CFloat.fmax, h]
  rfl

/-- A row of 3000 entries: `k` normalised cells, the rest of the `n` logarithms, then
the zeros appended by `resize`. -/
theorem norm_row_silent (L : ℚ) (n : Nat) (hn : n ≤ 3000) :
    ∀ k, k < n →
      forLoop (norm_row_step (CFloat.fin L)) (k + 1) (List.replicate n (CFloat.fin L)) =
        List.replicate (k + 1) (CFloat.fin ((L + 4) / 4)) ++
          (List.replicate (n - (k + 1)) (CFloat.fin L) ++
            List.replicate (3000 - n) (CFloat.fin 0)) := by
  intro k
  induction k with
  | zero =>
    intro hk
    have hget : (List.replicate n (CFloat.fin L)).getD 0 (CFloat.fin 0) = CFloat.fin L := by
      rw [List.getD_eq_getElem?_getD, List.getElem?_replicate, if_pos hk]; rfl
    simp only [forLoop, norm_row_step, hget, norm_value, resize]
    apply List.ext_getElem?
    intro j
    simp only [List.getElem?_set, List.getElem?_append, List.getElem?_replicate,
      List.getElem?_take, List.length_append, List.length_replicate, List.length_take,
      List.length_set]
    split_ifs <;> first | rfl | omega
  | succ k ih =>
    intro hk
    rw [forLoop, ih (by omega)]
    have hget : (List.replicate (k + 1) (CFloat.fin ((L + 4) / 4)) ++
        (List.replicate (n - (k + 1)) (CFloat.fin L) ++
          List.replicate (3000 - n) (CFloat.fin 0))).getD (k + 1) (CFloat.fin 0) =
        CFloat.fin L := by
      rw [List.getD_eq_getElem?_getD]
      simp only [List.getElem?_append, List.getElem?_replicate, List.length_replicate]
      rw [if_neg (by omega), if_pos (by omega), if_pos (by omega)]; rfl
    simp only [norm_row_step, hget, norm_value, resize]
    apply List.ext_getElem?
    intro j
    simp only [List.getElem?_set, List.getElem?_append, List.getElem?_replicate,
      List.getElem?_take, List.length_append, List.length_replicate, List.length_take,
      List.length_set]
    split_ifs <;> first | rfl | omega

theorem log_pass_silent (log10 : CFloat → CFloat) (L : ℚ)
    (hlog : log10 (CFloat.fin (1 / 10 ^ 10)) = CFloat.fin L) (hL : -(10 ^ 20) < L)
    (n : Nat) (hn : 1 ≤ n) :
    log_pass log10 n (silent_mel n) =
      (List.replicate WHISPER_N_MELS (List.replicate n (CFloat.fin L)), CFloat.fin L) := by
  have key : ∀ k, k ≤ WHISPER_N_MELS →
      forLoop (fun i s => forLoop (fun c s => log_cell log10 i c s) n s) k
        (silent_mel n, CFloat.fin (-(10 ^ 20))) =
      (List.replicate k (List.replicate n (CFloat.fin L)) ++
        List.replicate (WHISPER_N_MELS - k) (List.replicate n (CFloat.fin 0)),
        if k = 0 then CFloat.fin (-(10 ^ 20)) else CFloat.fin L) := by
    intro k
    induction k with
    | zero => intro _; simp [forLoop, silent_mel]
    | succ k ih =>
      intro hk
      rw [forLoop, ih (by omega)]
      have hlen : k < (List.replicate k (List.replicate n (CFloat.fin L)) ++
          List.replicate (WHISPER_N_MELS - k) (List.replicate n (CFloat.fin 0))).length := by
        simp only [List.length_append, List.length_replicate]; omega
      rw [forLoop_row_pair k _ (log_row_step log10)
        (fun c s hs => log_cell_row log10 k c s hs) n _ hlen]
      have hrow : (List.replicate k (List.replicate n (CFloat.fin L)) ++
          List.replicate (WHISPER_N_MELS - k) (List.replicate n (CFloat.fin 0))).getD k [] =
          List.replicate n (CFloat.fin 0) := by
        rw [List.getD_eq_getElem?_getD, two_block_getElem? _ _ k WHISPER_N_MELS (by omega)]
        rfl
      have hm : CFloat.lt (if k = 0 then CFloat.fin (-(10 ^ 20)) else CFloat.fin L)
          (CFloat.fin L) = true ∨
          (if k = 0 then CFloat.fin (-(10 ^ 20)) else CFloat.fin L) = CFloat.fin L := by
        by_cases hk0 : k = 0
        · left; rw [if_pos hk0]; simp only [CFloat.lt, decide_eq_true_eq]; exact hL
        · right; rw [if_neg hk0]
      simp only [hrow]
      rw [log_row_silent log10 L hlog n _ hm n (le_refl n)]
      simp only [Nat.sub_self, List.replicate_zero, List.append_nil]
      rw [two_block_set _ _ k WHISPER_N_MELS (by omega), if_neg (by omega),
        if_neg (Nat.succ_ne_zero k)]
  have h := key WHISPER_N_MELS (le_refl _)
  simp only [Nat.sub_self, List.replicate_zero, List.append_nil] at h
  rw [log_pass, h]
  rfl

theorem norm_pass_silent (L : ℚ) (n : Nat) (h1 : 1 ≤ n) (h2 : n ≤ 3000) :
    norm_pass (CFloat.fin L) n (List.replicate WHISPER_N_MELS (List.replicate n (CFloat.fin L))) =
      List.replicate WHISPER_N_MELS
        (List.replicate n (CFloat.fin ((L + 4) / 4)) ++
          List.replicate (3000 - n) (CFloat.fin 0)) := by
  obtain ⟨_, hget⟩ := norm_pass_rows (CFloat.fin L) n
    (List.replicate WHISPER_N_MELS (List.replicate n (CFloat.fin L))) (List.length_replicate _ _)
  have hrow : forLoop (norm_row_step (CFloat.fin L)) n (List.replicate n (CFloat.fin L)) =
      List.replicate n (CFloat.fin ((L + 4) / 4)) ++
        List.replicate (3000 - n) (CFloat.fin 0) := by
    obtain ⟨k, rfl⟩ : ∃ k, n = k + 1 := ⟨n - 1, by omega⟩
    rw [norm_row_silent L (k + 1) h2 k (by omega)]
    simp only [Nat.sub_self, List.replicate_zero, List.nil_append]
  apply List.ext_getElem?
  intro j
  rw [hget j]
  simp only [List.getElem?_replicate]
  split_ifs
  · simp only [Option.map_some', hrow]
  · rfl

/-- On the silent spectrogram with `1 ≤ n_len ≤ 3000` frames every row after the two
loops is `n_len` cells at the floor `(L + 4) / 4` followed by `3000 - n_len` zeros,
`L` being the value of `log10` at `1e-10`. -/
theorem normalize_silent_mel (log10 : CFloat → CFloat) (L : ℚ)
    (hlog : log10 (CFloat.fin (1 / 10 ^ 10)) = CFloat.fin L) (hL : -(10 ^ 20) < L)
    (n_len : Nat) (h1 : 1 ≤ n_len) (h2 : n_len ≤ 3000) :
    normalize_mel log10 (silent_mel n_len) =
      List.replicate WHISPER_N_MELS
        (List.replicate n_len (CFloat.fin ((L + 4) / 4)) ++
          List.replicate (3000 - n_len) (CFloat.fin 0)) := by
  have h80 : 0 < WHISPER_N_MELS := by decide
  have hn : ((silent_mel n_len).getD 0 []).length = n_len := by
    rw [silent_mel, List.getD_eq_getElem?_getD, List.getElem?_replicate, if_pos h80]
    exact List.length_replicate _ _
  simp only [normalize_mel, hn]
  rw [log_pass_silent log10 L hlog hL n_len h1]
  exact norm_pass_silent L n_len h1 h2

theorem mat_load_two_block (a b : CFloat) (n N i j : Nat) (hi : i < N) :
    mat_load (List.replicate N (List.replicate n a ++ List.replicate (3000 - n) b)) i j =
      if j < n then a else if j < 3000 then b else CFloat.fin 0 := by
  simp only [mat_load, List.getD_eq_getElem?_getD, List.getElem?_replicate, if_pos hi,
    Option.getD_some, List.getElem?_append, List.length_replicate]
  split_ifs <;> first | rfl | omega

/-- C8 (as amended): for the all-zero power spectrogram of 80 rows and `n_len` frames,
`1 ≤ n_len < 3000`, the tensor after the log10 / clamp / normalise / resize pass has 80
rows of 3000 cells; in every row the first `n_len` cells hold the floor value
`(log10(1e-10) + 4) / 4` and the remaining `3000 - n_len` cells, appended by `resize`,
hold 0.  `L` is the finite value `log10` returns at `1e-10`. -/
theorem silent_mel_floor_then_padding (log10 : CFloat → CFloat) (L : ℚ)
    (hlog : log10 (CFloat.fin (1 / 10 ^ 10)) = CFloat.fin L) (hL : -(10 ^ 20) < L)
    (n_len : Nat) (h1 : 1 ≤ n_len) (h2 : n_len < 3000) :
    (normalize_mel log10 (silent_mel n_len)).length = WHISPER_N_MELS ∧
    (∀ r ∈ normalize_mel log10 (silent_mel n_len), r.length = 3000) ∧
    mel_floor log10 = CFloat.fin ((L + 4) / 4) ∧
    ∀ i j, i < WHISPER_N_MELS → j < 3000 →
      mat_load (normalize_mel log10 (silent_mel n_len)) i j =
        if j < n_len then mel_floor log10 else CFloat.fin 0 := by
  have hfloor : mel_floor log10 = CFloat.fin ((L + 4) / 4) := by
    rw [mel_floor, hlog]; rfl
  rw [normalize_silent_mel log10 L hlog hL n_len h1 (by omega), hfloor]
  refine ⟨List.length_replicate _ _, ?_, rfl, ?_⟩
  · intro r hr
    rw [List.eq_of_mem_replicate hr]
    simp only [List.length_append, List.length_replicate]
    omega
  · intro i j hi hj
    rw [mat_load_two_block _ _ _ _ i j hi, if_pos hj]

theorem silent_mel_floor_then_padding_witness :
    mat_load (normalize_mel (fun _ => CFloat.fin (-10)) (silent_mel 1)) 0 0 =
      mel_floor (fun _ => CFloat.fin (-10)) ∧
    mat_load (normalize_mel (fun _ => CFloat.fin (-10)) (silent_mel 1)) 0 1 = CFloat.fin 0 :=
  have h := silent_mel_floor_then_padding (fun _ => CFloat.fin (-10)) (-10) rfl (by norm_num)
    1 (le_refl 1) (by omega)
  ⟨h.2.2.2 0 0 (by decide) (by omega), h.2.2.2 0 1 (by decide) (by omega)⟩

/-- C8 as stated fails: with one frame (`n_len = 1`) and `log10(1e-10) = -10` the cell
in row 0, column 1 is a zero appended by `resize(3000)`, not the floor value
`(-10 + 4) / 4 = -1.5`. -/
theorem silent_mel_padding_counterexample :
    ¬ (∀ (log10 : CFloat → CFloat) (n_len : Nat), 1 ≤ n_len → n_len < 3000 →
      AllCellsAtFloor log10 n_len) := by
  intro hall
  have h := hall (fun _ => CFloat.fin (-10)) 1 (le_refl 1) (by omega) 0 1 (by decide) (by omega)
  rw [normalize_silent_mel (fun _ => CFloat.fin (-10)) (-10) rfl (by norm_num) 1 (le_refl 1)
    (by omega), mat_load_two_block _ _ _ _ 0 1 (by decide), if_neg (by omega),
    if_pos (by omega)] at h
  simp only [mel_floor, CFloat.addQ, CFloat.divQ, CFloat.fin.injEq] at h
  norm_num at h
